import Mathlib

/-!
# nginxpulse ingest: dedup cache and per-target scanner

A shallow embedding of `internal/ingest/dedup/cache.go`, of
`internal/ingest/source_scanner.go` and of the compression detection of
`internal/ingest/source/helpers.go`, with the properties of the design
document proved (or refuted) over it.

Conventions of the embedding:

* `time.Time` readings of the dedup cache are integers (nanoseconds); the clock
  reading `time.Now()` of a call is an explicit argument of that call.
* `int64` byte counts and Unix seconds are integers; the one sum of the
  scanner, `startOffset + bytesRead`, is the wrapping `int64` addition.
* Go strings are sequences of Unicode characters; `strings.TrimSpace`,
  `strings.ToLower` and `strings.HasSuffix` act on them character by character.
* One pass of `scanTarget` returns its error, the state store afterwards and
  the trace of the calls it made on its collaborators (backend, parser, store).
* A pointer `*list.Element` is a heap address (a natural number); the heap maps
  addresses to the `entry` they hold, so that the key index `items` and the
  recency list `order` share elements exactly as in the Go code.
-/

namespace dedup

/-- The struct `entry` of cache.go: the value held by a list element. -/
structure entry where
  key : String
  expiresAt : Int
deriving DecidableEq, Repr

/-- The struct `Cache` of cache.go (the mutex left out: every operation runs
under it, so operations are atomic state transitions).
`items` is the Go map from key to element pointer, `order` is the
`container/list` of element pointers, front first; `heap` gives the entry an
element points to and `nextPtr` is the next address the allocator hands out. -/
structure Cache where
  maxEntries : Int
  ttl : Int
  items : List (String × Nat)
  order : List Nat
  heap : Nat → entry
  nextPtr : Nat

/-- Go map read `m[key]`, with the `ok` flag as an option. -/
def mapGet : List (String × Nat) → String → Option Nat
  | [], _ => none
  | (k, v) :: rest, key => if k = key then some v else mapGet rest key

/-- Go builtin `delete(m, key)`. -/
def mapDelete (m : List (String × Nat)) (key : String) : List (String × Nat) :=
  m.filter (fun kv => decide (kv.1 ≠ key))

/-- Go map write `m[key] = v`. -/
def mapSet (m : List (String × Nat)) (key : String) (v : Nat) : List (String × Nat) :=
  (key, v) :: mapDelete m key

/-- Method `Remove` of `container/list`: unlink the element if it is in the list. -/
def listRemove (l : List Nat) (e : Nat) : List Nat := l.erase e

/-- Method `MoveToFront` of `container/list`: no effect on a foreign element. -/
def listMoveToFront (l : List Nat) (e : Nat) : List Nat :=
  if e ∈ l then e :: l.erase e else l

/-- Method `Back` of `container/list`. -/
def listBack (l : List Nat) : Option Nat := l.getLast?

/-- Ten minutes as a `time.Duration` (nanoseconds). -/
def tenMinutes : Int := 10 * (60 * 1000000000)

/-- Function `NewCache` of cache.go. -/
def NewCache (maxEntries : Int) (ttl : Int) : Cache :=
  let maxEntries := if maxEntries ≤ 0 then 100000 else maxEntries
  let ttl := if ttl ≤ 0 then tenMinutes else ttl
  { maxEntries := maxEntries, ttl := ttl, items := [], order := [],
    heap := fun _ => ⟨"", 0⟩, nextPtr := 0 }

/-- Method `removeElement` of cache.go. -/
def removeElement (c : Cache) (element : Nat) : Cache :=
  let order := listRemove c.order element
  let ent := c.heap element
  { c with order := order, items := mapDelete c.items ent.key }

/-- Method `removeOldest` of cache.go. -/
def removeOldest (c : Cache) : Cache :=
  match listBack c.order with
  | some element => removeElement c element
  | none => c

/-- Lines 53-58 of `Seen`: allocate a fresh element holding the entry for
`key`, push it to the front of the recency list and index it. -/
def pushFresh (c : Cache) (key : String) (now : Int) : Cache :=
  let element := c.nextPtr
  { c with
    heap := Function.update c.heap element ⟨key, now + c.ttl⟩
    nextPtr := c.nextPtr + 1
    order := element :: c.order
    items := mapSet c.items key element }

/-- Lines 53-64 of `Seen`: insert a fresh entry for `key`, then evict from the
back when the list is longer than `maxEntries`. -/
def insertFresh (c : Cache) (key : String) (now : Int) : Cache :=
  let c1 := pushFresh c key now
  if 0 < c1.maxEntries ∧ c1.maxEntries < (c1.order.length : Int) then removeOldest c1 else c1

/-- Lines 46-47 of `Seen`: refresh the expiry of a live element and move it to
the front. -/
def refresh (c : Cache) (element : Nat) (now : Int) : Cache :=
  let ent := c.heap element
  { c with
    heap := Function.update c.heap element { ent with expiresAt := now + c.ttl }
    order := listMoveToFront c.order element }

/-- Method `Seen` of cache.go, with the reading of `time.Now()` as `now`.
Returns the boolean result and the cache after the call. -/
def Seen (c : Cache) (key : String) (now : Int) : Bool × Cache :=
  match mapGet c.items key with
  | some element =>
    let ent := c.heap element
    if now < ent.expiresAt then
      (true, refresh c element now)
    else
      (false, insertFresh (removeElement c element) key now)
  | none => (false, insertFresh c key now)

/-- The cache after a sequence of `Seen` calls, each with its key and clock reading. -/
def run (c : Cache) (calls : List (String × Int)) : Cache :=
  calls.foldl (fun c call => (Seen c call.1 call.2).2) c

/-- The expiry time stored for `key`, read through the key index as `Seen` does. -/
def expiryOf (c : Cache) (key : String) : Option Int :=
  (mapGet c.items key).map (fun element => (c.heap element).expiresAt)

/-- Whether `key` is stored: `_, ok := c.items[key]`. -/
def has (c : Cache) (key : String) : Bool := (mapGet c.items key).isSome

/-- The keys of the recency list, most recently used first. -/
def orderKeys (c : Cache) : List String := c.order.map (fun element => (c.heap element).key)

/-- The keys of the key index. -/
def itemKeys (c : Cache) : List String := c.items.map Prod.fst

/-- `key` is the most recently used entry: the index holds it and its element
is at the front of the recency list. -/
def isFront (c : Cache) (key : String) : Prop :=
  ∃ element, mapGet c.items key = some element ∧ c.order.head? = some element
    ∧ (c.heap element).key = key

/-- Position (counted from 1) of the most recent call on `key` in a call
sequence, or 0 when `key` was never passed to `Seen`. -/
def lastSeenAt (calls : List (String × Int)) (key : String) : Nat :=
  calls.length - (calls.reverse.map Prod.fst).indexOf key

/-- The key index and the recency list describe the same elements: no element
and no key occurs twice, every index entry points at a list element holding
that key, every list element is indexed under its key, and every list element
was allocated. -/
structure Consistent (c : Cache) : Prop where
  order_nodup : c.order.Nodup
  items_nodup : (itemKeys c).Nodup
  index_sound : ∀ k p, mapGet c.items k = some p → p ∈ c.order ∧ (c.heap p).key = k
  index_complete : ∀ p, p ∈ c.order → mapGet c.items (c.heap p).key = some p
  allocated : ∀ p, p ∈ c.order → p < c.nextPtr

/-- The representation invariant of the cache: consistency, a positive
capacity and at most `maxEntries` elements. -/
structure Inv (c : Cache) : Prop where
  consistent : Consistent c
  cap_pos : 0 < c.maxEntries
  bounded : (c.order.length : Int) ≤ c.maxEntries

/-- The recency list after a call on `key`, in terms of keys: `key` moves (or
is added) to the front and the last key is dropped when over capacity. -/
def touch (cap : Int) (keys : List String) (key : String) : List String :=
  let l := key :: keys.erase key
  if cap < (l.length : Int) then l.dropLast else l

/-- The entries of the recency list, most recently used first. -/
def orderEntries (c : Cache) : List entry := c.order.map c.heap

/-- Lines 60-62 of `Seen`: the element the capacity check removes after the
fresh entry for `key` was pushed, if it removes one. -/
def evictedAfterPush (c : Cache) (key : String) (now : Int) : Option Nat :=
  let c1 := pushFresh c key now
  if 0 < c1.maxEntries ∧ c1.maxEntries < (c1.order.length : Int) then listBack c1.order
  else none

/-- The element a call of `Seen` on `key` at `now` removes by capacity
eviction, if any, following the branches of `Seen`: a hit evicts nothing; an
expired or absent key is pushed again and the capacity check runs. -/
def evicted (c : Cache) (key : String) (now : Int) : Option Nat :=
  match mapGet c.items key with
  | some element =>
    if now < (c.heap element).expiresAt then none
    else evictedAfterPush (removeElement c element) key now
  | none => evictedAfterPush c key now

/-- The effective capacity of a cache configured with `maxEntries`. -/
def effectiveCapacity (maxEntries : Int) : Int :=
  if maxEntries ≤ 0 then 100000 else maxEntries

end dedup

namespace strings

/-- Go `unicode.IsSpace`: the code points with the Unicode White_Space
property. -/
def isSpace (c : Char) : Bool :=
  (9 ≤ c.toNat && c.toNat ≤ 13) || c.toNat == 32 || c.toNat == 0x85 || c.toNat == 0xA0
    || c.toNat == 0x1680 || (0x2000 ≤ c.toNat && c.toNat ≤ 0x200A) || c.toNat == 0x2028
    || c.toNat == 0x2029 || c.toNat == 0x202F || c.toNat == 0x205F || c.toNat == 0x3000

/-- Go `unicode.ToLower` on ASCII: a capital letter becomes the small
letter, every other ASCII character is kept. -/
def asciiToLower : Char → Char
  | 'A' => 'a' | 'B' => 'b' | 'C' => 'c' | 'D' => 'd' | 'E' => 'e' | 'F' => 'f' | 'G' => 'g'
  | 'H' => 'h' | 'I' => 'i' | 'J' => 'j' | 'K' => 'k' | 'L' => 'l' | 'M' => 'm' | 'N' => 'n'
  | 'O' => 'o' | 'P' => 'p' | 'Q' => 'q' | 'R' => 'r' | 'S' => 's' | 'T' => 't' | 'U' => 'u'
  | 'V' => 'v' | 'W' => 'w' | 'X' => 'x' | 'Y' => 'y' | 'Z' => 'z'
  | c => c

/-- Go `unicode.ToLower`. Outside ASCII the lower case of a rune is given by
the Unicode case tables of the Go runtime, which are taken as the parameter
`table`. -/
def toLowerRune (table : Char → Char) (c : Char) : Char :=
  if c.toNat < 128 then asciiToLower c else table c

/-- Go `strings.ToLower`. -/
def ToLower (table : Char → Char) (s : String) : String :=
  String.mk (s.data.map (toLowerRune table))

/-- The characters of a string without its trailing white space. -/
def trimRight (l : List Char) : List Char := (l.reverse.dropWhile isSpace).reverse

/-- Go `strings.TrimSpace`: leading and trailing white space removed. -/
def TrimSpace (s : String) : String := String.mk (trimRight (s.data.dropWhile isSpace))

/-- Go `strings.HasSuffix`: `len(s) >= len(suffix)` and the last `len(suffix)`
characters of `s` are `suffix`. -/
def HasSuffix (s suffix : String) : Bool :=
  decide (suffix.data.length ≤ s.data.length
    ∧ s.data.drop (s.data.length - suffix.data.length) = suffix.data)

/-- The string `s` is the lower-case literal `lit` up to the case of its
letters: character by character, `s` has the character of `lit` or its
capital. -/
def matchesFold : List Char → List Char → Bool
  | [], [] => true
  | a :: s, b :: lit => (a == b || a == b.toUpper) && matchesFold s lit
  | _, _ => false

/-- The code points with the Unicode White_Space property, one by one. -/
def whiteSpaceCodes : List Nat :=
  [0x09, 0x0A, 0x0B, 0x0C, 0x0D, 0x20, 0x85, 0xA0, 0x1680, 0x2000, 0x2001, 0x2002, 0x2003,
    0x2004, 0x2005, 0x2006, 0x2007, 0x2008, 0x2009, 0x200A, 0x2028, 0x2029, 0x202F, 0x205F,
    0x3000]

/-- The string `s` is the lower-case literal `lit` up to white space around
it and the case of its letters: `s` is some white space, then a case variant
of `lit`, then some white space. -/
def paddedFold (s lit : String) : Prop :=
  ∃ lead core trail, s.data = lead ++ core ++ trail
    ∧ (∀ c, c ∈ lead → c.toNat ∈ whiteSpaceCodes)
    ∧ (∀ c, c ∈ trail → c.toNat ∈ whiteSpaceCodes)
    ∧ matchesFold core lit.data = true

end strings

namespace source

/-- Function `normalizeCompression` of helpers.go (`table`: the Unicode case
tables behind `strings.ToLower`). -/
def normalizeCompression (table : Char → Char) (value : String) : String :=
  strings.ToLower table (strings.TrimSpace value)

/-- Function `isCompressedByName` of helpers.go (`table`: the Unicode case
tables behind `strings.ToLower`). -/
def isCompressedByName (table : Char → Char) (name : String) (compression : String) : Bool :=
  if normalizeCompression table compression = "gz" then true
  else if normalizeCompression table compression = "none" then false
  else strings.HasSuffix (strings.ToLower table name) ".gz"

/-- A fragment of the Unicode case tables for examples: the capitals of
e-acute and of the Greek omega, and the two runes outside ASCII whose lower
case is an ASCII letter. -/
def sampleTable : Char → Char
  | '\u00C9' => '\u00E9'
  | '\u03A9' => '\u03C9'
  | '\u0130' => 'i'
  | '\u212A' => 'k'
  | c => c

/-- The errors a backend call can return, up to `errors.Is`: the two sentinel
values of types.go, and any other error (I/O, network, decoding). -/
inductive Error where
  | ErrRangeNotSupported
  | ErrStreamNotSupported
  | other (msg : String)
deriving DecidableEq, Repr

/-- A `time.Time` instant: seconds since the Unix epoch and the nanoseconds
within that second. -/
structure Time where
  sec : Int
  nsec : Nat
deriving DecidableEq, Repr

/-- Method `Unix` of `time.Time`. -/
def Time.Unix (t : Time) : Int := t.sec

/-- Method `IsZero` of `time.Time`: the instant January 1, year 1, 00:00 UTC. -/
def Time.IsZero (t : Time) : Bool := t.sec == -62135596800 && t.nsec == 0

/-- The struct `TargetMeta` of types.go. -/
structure TargetMeta where
  Size : Int
  ModTime : Time
  ETag : String
  Compressed : Bool
deriving DecidableEq, Repr

/-- The struct `TargetRef` of types.go. -/
structure TargetRef where
  WebsiteID : String
  SourceID : String
  Key : String
  Meta : TargetMeta
deriving DecidableEq, Repr

/-- The methods of the interface `LogSource` that `scanTarget` calls. A reader
is the byte stream it will deliver; `none` is a nil reader. -/
structure LogSource where
  OpenRange : TargetRef → Int → Int → Except Error (Option (List Nat))
  Stat : TargetRef → Except Error TargetMeta

/-- The backend `AgentSource` of agent.go: push-only, nothing can be pulled. -/
def AgentSource : LogSource where
  OpenRange := fun _ _ _ => Except.error Error.ErrRangeNotSupported
  Stat := fun _ => Except.error Error.ErrStreamNotSupported

end source

namespace ingest

open source

/-- Modelled from the spec: the struct `TargetState` is declared outside the
files under src/; these are the fields of the persisted cursor of section 3,
under the names `scanTarget` uses. -/
structure TargetState where
  LastOffset : Int
  LastSize : Int
  LastETag : String
  LastModTime : Int
  ParsedMinTs : Int
  ParsedMaxTs : Int
  FirstTimestamp : Int
  LastTimestamp : Int
  RecentCutoffTs : Int
  BackfillDone : Bool
deriving DecidableEq, Repr

/-- The Go zero value `TargetState{}`. -/
def TargetState.zero : TargetState :=
  { LastOffset := 0, LastSize := 0, LastETag := "", LastModTime := 0, ParsedMinTs := 0,
    ParsedMaxTs := 0, FirstTimestamp := 0, LastTimestamp := 0, RecentCutoffTs := 0,
    BackfillDone := false }

/-- Modelled from the spec: the struct `parseWindow` is declared outside the
files under src/; `minTs` is the optional minimum-timestamp filter of the line
parser contract (section 6), 0 meaning no lower bound. -/
structure parseWindow where
  minTs : Int
deriving DecidableEq, Repr

/-- The four summary outputs of `parseLogLines`. -/
structure ParseOutput where
  entriesCount : Int
  bytesRead : Int
  minTs : Int
  maxTs : Int
deriving DecidableEq, Repr

/-- Modelled from the spec: the state store behind `getTargetState` and
`setTargetState` is not under src/; section 6 gives its contract, a key-value
store keyed by website and target key. -/
structure LogParser where
  targetStates : String → String → Option TargetState

/-- Modelled from the spec: `get(website, key)` returns the stored state and
whether it was found (the zero state when absent). -/
def getTargetState (p : LogParser) (websiteID key : String) : TargetState × Bool :=
  match p.targetStates websiteID key with
  | some state => (state, true)
  | none => (TargetState.zero, false)

/-- Modelled from the spec: `set(website, key, state)` overwrites one key and
leaves every other key as it was. -/
def setTargetState (p : LogParser) (websiteID key : String) (state : TargetState) : LogParser :=
  { targetStates := fun w k =>
      if w = websiteID ∧ k = key then some state else p.targetStates w k }

/-- The collaborators of `scanTarget` that are out of scope of the repository
core: the line parser (a consumer of a byte stream and a window that reports
its four summary outputs), the gzip header check with the decompressed stream
it gives access to, and the value of
`time.Now().AddDate(0, 0, -recentLogWindowDays).Unix()` at the time of the pass. -/
structure Env where
  parseLogLines : List Nat → String → String → parseWindow → ParseOutput
  gzipNewReader : List Nat → Except Error (List Nat)
  recentCutoff : Int

/-- Modelled from the spec: the helper `skipReaderBytes` is not under src/;
section 4.2 step 5 says it discards exactly `n` bytes from the front of the
stream. A stream that ends before `n` bytes were discarded is a failed skip. -/
def skipReaderBytes (reader : List Nat) (n : Int) : Except Error (List Nat) :=
  if n ≤ (reader.length : Int) then Except.ok (reader.drop n.toNat)
  else Except.error (Error.other "unexpected EOF")

/-- The calls `scanTarget` makes on its collaborators, in order. -/
inductive Event where
  | Stat
  | OpenRange (start : Int) (stop : Int)
  | skipReaderBytes (n : Int)
  | gzipNewReader
  | parseLogLines (reader : List Nat) (window : parseWindow)
  | setTargetState (websiteID : String) (key : String) (state : TargetState)
deriving DecidableEq, Repr

/-- The event is a state write (`setTargetState`). -/
def Event.isWrite : Event → Bool
  | Event.setTargetState _ _ _ => true
  | _ => false

/-- The event is a call of the line parser. -/
def Event.isParse : Event → Bool
  | Event.parseLogLines _ _ => true
  | _ => false

/-- The event is a call of `OpenRange`. -/
def Event.isOpen : Event → Bool
  | Event.OpenRange _ _ => true
  | _ => false

/-- What one call of `scanTarget` does: the error it returns (`none` is nil),
the state store afterwards, and the calls it made. -/
structure ScanResult where
  err : Option Error
  p : LogParser
  trace : List Event

/-- Function `buildTargetStateKey` of source_scanner.go. -/
def buildTargetStateKey (sourceID key : String) : String :=
  if sourceID = "" then key else sourceID ++ ":" ++ key

/-- Function `updateTargetParsedRange` of source_scanner.go. -/
def updateTargetParsedRange (state : TargetState) (minTs maxTs : Int) : TargetState :=
  let state :=
    if 0 < minTs ∧ (state.ParsedMinTs = 0 ∨ minTs < state.ParsedMinTs)
    then { state with ParsedMinTs := minTs } else state
  let state :=
    if 0 < maxTs ∧ state.ParsedMaxTs < maxTs
    then { state with ParsedMaxTs := maxTs } else state
  let state :=
    if state.FirstTimestamp = 0 ∨ (0 < minTs ∧ minTs < state.FirstTimestamp)
    then { state with FirstTimestamp := minTs } else state
  if 0 < maxTs ∧ state.LastTimestamp < maxTs
  then { state with LastTimestamp := maxTs } else state

/-- A freshly created state, as `scanTarget` builds it for a new or reset
target: the zero value with the backfill floor set (lines 73 and 89). -/
def freshState (cutoff : Int) : TargetState :=
  { TargetState.zero with RecentCutoffTs := cutoff }

/-- The backfill floor a pass works with for a stored state (lines 72-74 of
`scanTarget`): the stored `RecentCutoffTs`, or the cutoff computed by this
pass when the stored one is 0. -/
def floorOf (env : Env) (state : TargetState) : Int :=
  if state.RecentCutoffTs = 0 then env.recentCutoff else state.RecentCutoffTs

/-- The state after a sequence of `updateTargetParsedRange` calls, one per
pass, each with the bounds `(minTs, maxTs)` the parser reported. -/
def applyRanges (state : TargetState) (bounds : List (Int × Int)) : TargetState :=
  bounds.foldl (fun st b => updateTargetParsedRange st b.1 b.2) state

/-- Line 64 of `scanTarget`: the listing gave a bare reference. -/
def needsStat (m : TargetMeta) : Bool :=
  m.Size == 0 && m.ModTime.IsZero && m.ETag == ""

/-- Lines 63-70 of `scanTarget`: the metadata the pass works with. -/
def observeMeta (src : LogSource) (target : TargetRef) : Except Error TargetMeta :=
  if needsStat target.Meta then src.Stat target else Except.ok target.Meta

/-- The `Stat` call of lines 63-70, when it is made. -/
def statTrace (target : TargetRef) : List Event :=
  if needsStat target.Meta then [Event.Stat] else []

/-- Lines 72-74 of `scanTarget`: the backfill floor is set when the state is
new or has none. -/
def withCutoff (env : Env) (state : TargetState) (ok : Bool) : TargetState :=
  if ok = false ∨ state.RecentCutoffTs = 0
  then { state with RecentCutoffTs := env.recentCutoff } else state

/-- Lines 76-87 of `scanTarget`: the three reset conditions. -/
def resetDetected (ok : Bool) (m : TargetMeta) (state : TargetState) : Bool :=
  ok && (decide (0 < m.Size ∧ 0 < state.LastSize ∧ m.Size < state.LastSize)
    || decide (m.ETag ≠ "" ∧ state.LastETag ≠ "" ∧ m.ETag ≠ state.LastETag
        ∧ m.Size ≤ state.LastSize)
    || decide (0 < state.LastOffset ∧ 0 < m.Size ∧ m.Size < state.LastOffset))

/-- Lines 95-97 of `scanTarget`: a compressed target is unchanged. -/
def unchanged (m : TargetMeta) (state : TargetState) : Bool :=
  let sameETag := decide (m.ETag ≠ "" ∧ m.ETag = state.LastETag)
  let sameMod := decide (m.ETag = "" ∧ m.Size = state.LastSize
    ∧ m.ModTime.Unix = state.LastModTime)
  decide (m.Size = state.LastSize) && (sameETag || sameMod)

/-- Lines 115-129 of `scanTarget`: open the range, falling back to a full
read plus skip when the backend cannot serve ranges. Returns the calls made
and the reader (or the error `scanTarget` returns). Skipping on a nil reader
is a nil dereference, reported as an error. -/
def openWithFallback (src : LogSource) (target : TargetRef) (startOffset : Int) :
    List Event × Except Error (Option (List Nat)) :=
  match src.OpenRange target startOffset (-1) with
  | Except.ok reader => ([Event.OpenRange startOffset (-1)], Except.ok reader)
  | Except.error err =>
    if err = Error.ErrRangeNotSupported ∧ 0 < startOffset then
      match src.OpenRange target 0 (-1) with
      | Except.error err2 =>
        ([Event.OpenRange startOffset (-1), Event.OpenRange 0 (-1)], Except.error err2)
      | Except.ok none =>
        ([Event.OpenRange startOffset (-1), Event.OpenRange 0 (-1),
            Event.skipReaderBytes startOffset],
          Except.error (Error.other "nil pointer dereference"))
      | Except.ok (some reader) =>
        match skipReaderBytes reader startOffset with
        | Except.error skipErr =>
          ([Event.OpenRange startOffset (-1), Event.OpenRange 0 (-1),
              Event.skipReaderBytes startOffset], Except.error skipErr)
        | Except.ok rest =>
          ([Event.OpenRange startOffset (-1), Event.OpenRange 0 (-1),
              Event.skipReaderBytes startOffset], Except.ok (some rest))
    else ([Event.OpenRange startOffset (-1)], Except.error err)

/-- Go addition of two `int64` values: the sum modulo 2^64, read as a signed
64-bit value. -/
def addInt64 (a b : Int) : Int :=
  (a + b + 9223372036854775808) % 18446744073709551616 - 9223372036854775808

/-- Lines 158-172 of `scanTarget`: the state written after the parser ran. -/
def persisted (m : TargetMeta) (state : TargetState) (startOffset : Int)
    (out : ParseOutput) : TargetState :=
  let state := updateTargetParsedRange state out.minTs out.maxTs
  let state :=
    if state.LastTimestamp < m.ModTime.Unix
    then { state with LastTimestamp := m.ModTime.Unix } else state
  let state :=
    if m.Compressed then { state with LastOffset := m.Size, BackfillDone := true }
    else { state with LastOffset := addInt64 startOffset out.bytesRead, BackfillDone := true }
  { state with LastSize := m.Size, LastETag := m.ETag, LastModTime := m.ModTime.Unix }

/-- Lines 135-138 of `scanTarget`: the parse window. -/
def windowOf (ok : Bool) (state : TargetState) : parseWindow :=
  if ok = false then ⟨state.RecentCutoffTs⟩ else ⟨0⟩

/-- The result of a pass whose calls come after the calls `before`. -/
def ScanResult.after (before : List Event) (r : ScanResult) : ScanResult :=
  { r with trace := before ++ r.trace }

/-- Lines 135-178 of `scanTarget`: choose the parse window, decompress when
needed, run the parser and store the new state. -/
def parseAndPersist (env : Env) (p : LogParser) (websiteID targetKey : String)
    (target : TargetRef) (m : TargetMeta) (state : TargetState) (ok : Bool)
    (startOffset : Int) (reader : List Nat) : ScanResult :=
  let window := windowOf ok state
  if m.Compressed = true then
    match env.gzipNewReader reader with
    | Except.error err => { err := some err, p := p, trace := [Event.gzipNewReader] }
    | Except.ok gzReader =>
      let out := env.parseLogLines gzReader websiteID target.SourceID window
      let state := persisted m state startOffset out
      { err := none
        p := setTargetState p websiteID targetKey state
        trace := [Event.gzipNewReader, Event.parseLogLines gzReader window,
          Event.setTargetState websiteID targetKey state] }
  else
    let out := env.parseLogLines reader websiteID target.SourceID window
    let state := persisted m state startOffset out
    { err := none
      p := setTargetState p websiteID targetKey state
      trace := [Event.parseLogLines reader window,
        Event.setTargetState websiteID targetKey state] }

/-- Lines 102-105 of `scanTarget`: where the read starts. -/
def startOffsetOf (ok : Bool) (m : TargetMeta) (state : TargetState) : Int :=
  if ok = false ∨ m.Compressed = true then 0 else state.LastOffset

/-- Lines 108-110 of `scanTarget`: only the observed metadata is refreshed. -/
def refreshed (m : TargetMeta) (state : TargetState) : TargetState :=
  { state with LastSize := m.Size, LastETag := m.ETag, LastModTime := m.ModTime.Unix }

/-- Lines 115-179 of `scanTarget`: acquire the bytes, then parse and persist. -/
def readAndParse (env : Env) (p : LogParser) (websiteID targetKey : String)
    (src : LogSource) (target : TargetRef) (m : TargetMeta) (state : TargetState)
    (ok : Bool) : ScanResult :=
  match openWithFallback src target (startOffsetOf ok m state) with
  | (opens, Except.error err) => { err := some err, p := p, trace := opens }
  | (opens, Except.ok none) => { err := none, p := p, trace := opens }
  | (opens, Except.ok (some reader)) =>
    (parseAndPersist env p websiteID targetKey target m state ok (startOffsetOf ok m state)
      reader).after opens

/-- Lines 93-179 of `scanTarget`: the read strategy for the state and the
`ok` flag left by reset detection. -/
def scanFrom (env : Env) (p : LogParser) (websiteID targetKey : String)
    (src : LogSource) (target : TargetRef) (m : TargetMeta) (state : TargetState)
    (ok : Bool) : ScanResult :=
  if m.Compressed = true ∧ ok = true ∧ unchanged m state = true then
    { err := none, p := p, trace := [] }
  else if m.Compressed = false ∧ 0 < m.Size ∧ m.Size ≤ startOffsetOf ok m state then
    { err := none
      p := setTargetState p websiteID targetKey (refreshed m state)
      trace := [Event.setTargetState websiteID targetKey (refreshed m state)] }
  else
    readAndParse env p websiteID targetKey src target m state ok

/-- The state a reset leaves: everything discarded but `RecentCutoffTs`
(line 89 of `scanTarget`). -/
def resetState (state : TargetState) : TargetState :=
  { TargetState.zero with RecentCutoffTs := state.RecentCutoffTs }

/-- Lines 72-179 of `scanTarget`, on the observed metadata `m`. -/
def scanObserved (env : Env) (p : LogParser) (websiteID targetKey : String)
    (src : LogSource) (target : TargetRef) (state0 : TargetState) (ok0 : Bool)
    (m : TargetMeta) : ScanResult :=
  let state := withCutoff env state0 ok0
  if resetDetected ok0 m state = true then
    scanFrom env p websiteID targetKey src target m (resetState state) false
  else
    scanFrom env p websiteID targetKey src target m state ok0

/-- Method `scanTarget` of source_scanner.go. -/
def scanTarget (env : Env) (p : LogParser) (websiteID : String) (src : LogSource)
    (target : TargetRef) : ScanResult :=
  let targetKey := buildTargetStateKey target.SourceID target.Key
  let stateOk := getTargetState p websiteID targetKey
  match observeMeta src target with
  | Except.error err => { err := some err, p := p, trace := statTrace target }
  | Except.ok m =>
    (scanObserved env p websiteID targetKey src target stateOk.1 stateOk.2 m).after
      (statTrace target)

/-- A line parser for examples: it consumes the whole stream and reports no
record. -/
def exampleEnv : Env where
  parseLogLines := fun reader _ _ _ => ⟨0, reader.length, 0, 0⟩
  gzipNewReader := fun reader => Except.ok reader
  recentCutoff := 1000

/-- A state store holding the single state `state` under website "w" and
target key "s:k". -/
def storeWith (state : TargetState) : LogParser :=
  setTargetState ⟨fun _ _ => none⟩ "w" "s:k" state

/-- A target of source "s" with key "k" and the given metadata. -/
def targetWith (m : TargetMeta) : TargetRef :=
  { WebsiteID := "w", SourceID := "s", Key := "k", Meta := m }

/-- A backend for examples that serves ranges of the fixed content `content`. -/
def rangeSource (content : List Nat) : LogSource where
  OpenRange := fun _ start _ => Except.ok (some (content.drop start.toNat))
  Stat := fun target => Except.ok target.Meta

/-- A stored state for examples: 100 bytes consumed of a 100-byte target,
backfill floor 5. -/
def staleState : TargetState :=
  { TargetState.zero with LastOffset := 100, LastSize := 100, RecentCutoffTs := 5 }

/-- Metadata of an uncompressed target without entity tag, of the given size. -/
def plainMeta (size : Int) : TargetMeta := ⟨size, ⟨1700000000, 0⟩, "", false⟩

/-- A stored state for examples: a 3-byte compressed object with entity tag
"abc", fully consumed. -/
def gzState : TargetState :=
  { TargetState.zero with
    LastOffset := 3, LastSize := 3, LastETag := "abc", LastModTime := 200, RecentCutoffTs := 5 }

/-- Metadata of the compressed object of `gzState`, unchanged. -/
def gzMeta : TargetMeta := ⟨3, ⟨200, 0⟩, "abc", true⟩

/-- A backend for examples whose `OpenRange` delivers `content` whatever the
start offset: the bytes found from that offset on. -/
def fixedSource (content : List Nat) : LogSource where
  OpenRange := fun _ _ _ => Except.ok (some content)
  Stat := fun target => Except.ok target.Meta

/-- A stored state for examples whose offset is two below the largest
`int64` value. -/
def hugeState : TargetState :=
  { staleState with LastOffset := 9223372036854775806, LastSize := 9223372036854775806 }

/-- A backend for examples that serves `content` from offset 0 only and
answers `ErrRangeNotSupported` to any other start offset. -/
def streamOnlySource (content : List Nat) : LogSource where
  OpenRange := fun _ start _ =>
    if start = 0 then Except.ok (some content) else Except.error Error.ErrRangeNotSupported
  Stat := fun target => Except.ok target.Meta

end ingest

/-! # Theorems -/

namespace dedup

/-! ## The Go map operations -/

theorem mapGet_mapDelete (m : List (String × Nat)) (k key : String) :
    mapGet (mapDelete m k) key = if k = key then none else mapGet m key := by
  induction m with
  | nil => simp [mapDelete, mapGet]
  | cons kv rest ih =>
    obtain ⟨a, v⟩ := kv
    unfold mapDelete at ih ⊢
    by_cases hak : a = k
    · subst hak
      simp only [List.filter, ne_eq, not_true_eq_false, decide_False, ih, mapGet]
      by_cases h : a = key <;> simp [h]
    · simp only [List.filter, ne_eq, hak, not_false_eq_true, decide_True, mapGet, ih]
      by_cases h : a = key
      · subst h
        have : ¬ k = a := fun h => hak h.symm
        simp [this]
      · simp [h]

theorem mapGet_mapSet (m : List (String × Nat)) (k key : String) (v : Nat) :
    mapGet (mapSet m k v) key = if k = key then some v else mapGet m key := by
  unfold mapSet
  simp only [mapGet, mapGet_mapDelete]
  by_cases h : k = key <;> simp [h]

theorem mapGet_isSome_iff (m : List (String × Nat)) (key : String) :
    (mapGet m key).isSome = true ↔ key ∈ m.map Prod.fst := by
  induction m with
  | nil => simp [mapGet]
  | cons kv rest ih =>
    obtain ⟨a, v⟩ := kv
    by_cases h : a = key
    · simp [mapGet, h]
    · have h2 : ¬ key = a := fun e => h e.symm
      simp [mapGet, h, h2, ih]

theorem mapDelete_keys (m : List (String × Nat)) (k : String) :
    (mapDelete m k).map Prod.fst = (m.map Prod.fst).filter (fun a => decide (a ≠ k)) := by
  unfold mapDelete
  rw [List.filter_map]
  rfl

theorem mapDelete_keys_nodup (m : List (String × Nat)) (k : String)
    (h : (m.map Prod.fst).Nodup) : ((mapDelete m k).map Prod.fst).Nodup := by
  rw [mapDelete_keys]
  exact h.filter _

theorem mapSet_keys_nodup (m : List (String × Nat)) (k : String) (v : Nat)
    (h : (m.map Prod.fst).Nodup) : ((mapSet m k v).map Prod.fst).Nodup := by
  unfold mapSet
  rw [List.map_cons, List.nodup_cons]
  refine ⟨?_, mapDelete_keys_nodup m k h⟩
  rw [mapDelete_keys]
  simp

end dedup

namespace dedup

/-! ## Primitive steps preserve consistency -/

theorem key_injOn {c : Cache} (h : Consistent c) {p q : Nat} (hp : p ∈ c.order)
    (hq : q ∈ c.order) (hk : (c.heap p).key = (c.heap q).key) : p = q := by
  have h1 := h.index_complete p hp
  have h2 := h.index_complete q hq
  rw [hk, h2] at h1
  exact (Option.some.inj h1).symm

theorem map_erase_of_injOn {f : Nat → String} :
    ∀ (l : List Nat) (a : Nat), a ∈ l →
      (∀ x, x ∈ l → ∀ y, y ∈ l → f x = f y → x = y) →
      (l.erase a).map f = (l.map f).erase (f a)
  | [], a, ha, _ => by simp at ha
  | b :: t, a, ha, hinj => by
    by_cases hba : b = a
    · subst hba
      simp
    · have hat : a ∈ t := by
        rcases List.mem_cons.mp ha with h | h
        · exact absurd h.symm hba
        · exact h
      have hf : ¬ f b = f a := fun e =>
        hba (hinj b (List.mem_cons_self _ _) a ha e)
      rw [List.erase_cons_tail (by simpa using hba), List.map_cons, List.map_cons,
        List.erase_cons_tail (by simpa using hf)]
      congr 1
      exact map_erase_of_injOn t a hat (fun x hx y hy e =>
        hinj x (List.mem_cons_of_mem _ hx) y (List.mem_cons_of_mem _ hy) e)

theorem consistent_removeElement {c : Cache} (h : Consistent c) {q : Nat} (hq : q ∈ c.order) :
    Consistent (removeElement c q) := by
  refine ⟨?_, ?_, ?_, ?_, ?_⟩
  · exact h.order_nodup.erase q
  · exact mapDelete_keys_nodup _ _ h.items_nodup
  · intro k p hkp
    simp only [removeElement, mapGet_mapDelete] at hkp
    by_cases hk : (c.heap q).key = k
    · simp [hk] at hkp
    · simp only [hk, if_false] at hkp
      obtain ⟨hp, hpk⟩ := h.index_sound k p hkp
      refine ⟨?_, hpk⟩
      have hne : p ≠ q := by
        rintro rfl
        exact hk hpk
      exact (List.mem_erase_of_ne hne).mpr hp
  · intro p hp
    have hp1 : p ∈ c.order := List.mem_of_mem_erase hp
    have hne : p ≠ q := by
      rintro rfl
      exact (List.Nodup.not_mem_erase h.order_nodup) hp
    have hk : ¬ (c.heap q).key = (c.heap p).key := fun e =>
      hne (key_injOn h hp1 hq e.symm)
    simp only [removeElement, mapGet_mapDelete, hk, if_false]
    exact h.index_complete p hp1
  · intro p hp
    exact h.allocated p (List.mem_of_mem_erase hp)

theorem orderKeys_removeElement {c : Cache} (h : Consistent c) {q : Nat} (hq : q ∈ c.order) :
    orderKeys (removeElement c q) = (orderKeys c).erase (c.heap q).key := by
  simp only [orderKeys, removeElement, listRemove]
  exact map_erase_of_injOn c.order q hq (fun x hx y hy e => key_injOn h hx hy e)

theorem heap_pushFresh_of_mem {c : Cache} (h : Consistent c) (key : String) (now : Int)
    {p : Nat} (hp : p ∈ c.order) : (pushFresh c key now).heap p = c.heap p := by
  have hne : p ≠ c.nextPtr := Nat.ne_of_lt (h.allocated p hp)
  simp [pushFresh, Function.update_noteq hne]

theorem orderKeys_pushFresh {c : Cache} (h : Consistent c) (key : String) (now : Int) :
    orderKeys (pushFresh c key now) = key :: orderKeys c := by
  have hmap : c.order.map (fun e => ((pushFresh c key now).heap e).key)
      = c.order.map (fun e => (c.heap e).key) := by
    apply List.map_congr_left
    intro p hp
    rw [heap_pushFresh_of_mem h key now hp]
  simp only [orderKeys] at hmap ⊢
  show ((pushFresh c key now).order).map _ = _
  have ho : (pushFresh c key now).order = c.nextPtr :: c.order := rfl
  rw [ho, List.map_cons, hmap]
  simp [pushFresh]

theorem consistent_pushFresh {c : Cache} (h : Consistent c) {key : String} (now : Int)
    (hk : mapGet c.items key = none) : Consistent (pushFresh c key now) := by
  have hfresh : c.nextPtr ∉ c.order := fun hm => Nat.lt_irrefl _ (h.allocated _ hm)
  refine ⟨?_, ?_, ?_, ?_, ?_⟩
  · exact List.nodup_cons.mpr ⟨hfresh, h.order_nodup⟩
  · exact mapSet_keys_nodup _ _ _ h.items_nodup
  · intro k p hkp
    have hkp1 : mapGet (mapSet c.items key c.nextPtr) k = some p := hkp
    rw [mapGet_mapSet] at hkp1
    by_cases hkk : key = k
    · subst hkk
      simp only [if_true] at hkp1
      have hp : p = c.nextPtr := (Option.some.inj hkp1).symm
      subst hp
      refine ⟨List.mem_cons_self _ _, ?_⟩
      simp [pushFresh]
    · simp only [hkk, if_false] at hkp1
      obtain ⟨hp, hpk⟩ := h.index_sound k p hkp1
      refine ⟨List.mem_cons_of_mem _ hp, ?_⟩
      rw [heap_pushFresh_of_mem h key now hp]
      exact hpk
  · intro p hp
    show mapGet (mapSet c.items key c.nextPtr) ((pushFresh c key now).heap p).key = some p
    rw [mapGet_mapSet]
    rcases List.mem_cons.mp hp with hp | hp
    · subst hp
      simp [pushFresh]
    · rw [heap_pushFresh_of_mem h key now hp]
      have hne : ¬ key = (c.heap p).key := by
        intro e
        have := h.index_complete p hp
        rw [← e, hk] at this
        exact Option.noConfusion this
      simp only [hne, if_false]
      exact h.index_complete p hp
  · intro p hp
    show p < c.nextPtr + 1
    rcases List.mem_cons.mp hp with hp | hp
    · subst hp
      exact Nat.lt_succ_self _
    · exact Nat.lt_succ_of_lt (h.allocated p hp)

theorem heap_refresh_key (c : Cache) (element : Nat) (now : Int) (p : Nat) :
    ((refresh c element now).heap p).key = (c.heap p).key := by
  by_cases hp : p = element
  · subst hp
    simp [refresh]
  · simp [refresh, Function.update_noteq hp]

theorem consistent_refresh {c : Cache} (h : Consistent c) {key : String} {element : Nat}
    (now : Int) (hk : mapGet c.items key = some element) :
    Consistent (refresh c element now) := by
  have hmem : element ∈ c.order := (h.index_sound key element hk).1
  have horder : (refresh c element now).order = element :: c.order.erase element := by
    simp [refresh, listMoveToFront, hmem]
  have hiff : ∀ p, p ∈ (refresh c element now).order ↔ p ∈ c.order := by
    intro p
    rw [horder]
    constructor
    · intro hp
      rcases List.mem_cons.mp hp with hp | hp
      · subst hp; exact hmem
      · exact List.mem_of_mem_erase hp
    · intro hp
      by_cases hpe : p = element
      · subst hpe; exact List.mem_cons_self _ _
      · exact List.mem_cons_of_mem _ ((List.mem_erase_of_ne hpe).mpr hp)
  refine ⟨?_, h.items_nodup, ?_, ?_, ?_⟩
  · rw [horder]
    exact List.nodup_cons.mpr ⟨List.Nodup.not_mem_erase h.order_nodup, h.order_nodup.erase _⟩
  · intro k p hkp
    obtain ⟨hp, hpk⟩ := h.index_sound k p hkp
    exact ⟨(hiff p).mpr hp, by rw [heap_refresh_key]; exact hpk⟩
  · intro p hp
    rw [heap_refresh_key]
    exact h.index_complete p ((hiff p).mp hp)
  · intro p hp
    exact h.allocated p ((hiff p).mp hp)

theorem orderKeys_refresh {c : Cache} (h : Consistent c) {key : String} {element : Nat}
    (now : Int) (hk : mapGet c.items key = some element) :
    orderKeys (refresh c element now) = key :: (orderKeys c).erase key := by
  obtain ⟨hmem, hkey⟩ := h.index_sound key element hk
  have horder : (refresh c element now).order = element :: c.order.erase element := by
    simp [refresh, listMoveToFront, hmem]
  have hfun : (fun e => ((refresh c element now).heap e).key) = fun e => (c.heap e).key := by
    funext e
    exact heap_refresh_key c element now e
  simp only [orderKeys]
  rw [horder, hfun, List.map_cons, hkey]
  congr 1
  rw [← hkey]
  exact map_erase_of_injOn c.order element hmem (fun x hx y hy e => key_injOn h hx hy e)

theorem consistent_removeOldest {c : Cache} (h : Consistent c) :
    Consistent (removeOldest c) := by
  unfold removeOldest listBack
  cases hb : c.order.getLast? with
  | none => exact h
  | some q => exact consistent_removeElement h (List.mem_of_getLast?_eq_some hb)

theorem erase_getLast_of_nodup {l : List Nat} (hl : l.Nodup) {q : Nat}
    (hq : l.getLast? = some q) : l.erase q = l.dropLast := by
  have happ : l.dropLast ++ [q] = l := List.dropLast_append_getLast? q hq
  have hnot : q ∉ l.dropLast := by
    intro hm
    rw [← happ] at hl
    exact (List.disjoint_of_nodup_append hl) hm (List.mem_singleton_self q)
  conv_lhs => rw [← happ]
  rw [List.erase_append_right _ hnot]
  simp

theorem order_removeOldest {c : Cache} (h : Consistent c) :
    (removeOldest c).order = c.order.dropLast := by
  unfold removeOldest listBack
  cases hb : c.order.getLast? with
  | none =>
    have : c.order = [] := List.getLast?_eq_none_iff.mp hb
    simp [this]
  | some q =>
    show c.order.erase q = _
    exact erase_getLast_of_nodup h.order_nodup hb

theorem orderKeys_removeOldest {c : Cache} (h : Consistent c) :
    orderKeys (removeOldest c) = (orderKeys c).dropLast := by
  have hheap : (removeOldest c).heap = c.heap := by
    unfold removeOldest
    cases listBack c.order <;> rfl
  simp only [orderKeys, hheap, order_removeOldest h]
  exact List.map_dropLast _ _

/-! ## One call of `Seen` -/

theorem front_facts {c : Cache} (h : Consistent c) {p : Nat} (key : String) (e : Int)
    (hhead : c.order.head? = some p) (hheap : c.heap p = ⟨key, e⟩) :
    isFront c key ∧ expiryOf c key = some e := by
  have hp : p ∈ c.order := List.mem_of_mem_head? hhead
  have hidx := h.index_complete p hp
  rw [hheap] at hidx
  refine ⟨⟨p, hidx, hhead, by rw [hheap]⟩, ?_⟩
  simp [expiryOf, hidx, hheap]

theorem insertFresh_spec {c : Cache} (h : Consistent c) (hcap : 0 < c.maxEntries)
    (hlen : (c.order.length : Int) ≤ c.maxEntries) {key : String} (now : Int)
    (hk : mapGet c.items key = none) :
    Inv (insertFresh c key now)
      ∧ (insertFresh c key now).ttl = c.ttl
      ∧ (insertFresh c key now).maxEntries = c.maxEntries
      ∧ orderKeys (insertFresh c key now)
          = (if c.maxEntries < (((key :: orderKeys c).length : Nat) : Int)
              then (key :: orderKeys c).dropLast else key :: orderKeys c)
      ∧ isFront (insertFresh c key now) key
      ∧ expiryOf (insertFresh c key now) key = some (now + c.ttl) := by
  have hc1 : Consistent (pushFresh c key now) := consistent_pushFresh h now hk
  have hk1 : orderKeys (pushFresh c key now) = key :: orderKeys c := orderKeys_pushFresh h key now
  have hheap1 : (pushFresh c key now).heap c.nextPtr = ⟨key, now + c.ttl⟩ := by
    simp [pushFresh]
  have horder1 : (pushFresh c key now).order = c.nextPtr :: c.order := rfl
  have hmax1 : (pushFresh c key now).maxEntries = c.maxEntries := rfl
  have hlenk : (key :: orderKeys c).length = c.order.length + 1 := by
    simp [orderKeys]
  by_cases hev : 0 < (pushFresh c key now).maxEntries
      ∧ (pushFresh c key now).maxEntries < ((pushFresh c key now).order.length : Int)
  · have hres : insertFresh c key now = removeOldest (pushFresh c key now) := by
      simp only [insertFresh]
      rw [if_pos hev]
    have hc2 : Consistent (removeOldest (pushFresh c key now)) := consistent_removeOldest hc1
    have hheap2 : (removeOldest (pushFresh c key now)).heap = (pushFresh c key now).heap := by
      unfold removeOldest
      cases listBack (pushFresh c key now).order <;> rfl
    have hfix : (removeOldest (pushFresh c key now)).ttl = c.ttl
        ∧ (removeOldest (pushFresh c key now)).maxEntries = c.maxEntries := by
      unfold removeOldest
      cases listBack (pushFresh c key now).order <;> exact ⟨rfl, rfl⟩
    have hlt : c.maxEntries < (c.order.length : Int) + 1 := by
      have := hev.2
      rw [horder1, hmax1] at this
      simpa using this
    have hne : c.order ≠ [] := by
      intro e
      rw [e] at hlt
      simp at hlt
      omega
    have horder2 : (removeOldest (pushFresh c key now)).order
        = c.nextPtr :: c.order.dropLast := by
      rw [order_removeOldest hc1, horder1]
      cases hco : c.order with
      | nil => exact absurd hco hne
      | cons a t => rfl
    have hhead2 : (removeOldest (pushFresh c key now)).order.head? = some c.nextPtr := by
      simp [horder2]
    have hfront := front_facts hc2 key (now + c.ttl) hhead2 (by rw [hheap2]; exact hheap1)
    rw [hres]
    refine ⟨⟨hc2, by rw [hfix.2]; exact hcap, ?_⟩, hfix.1, hfix.2, ?_, hfront.1, hfront.2⟩
    · rw [hfix.2, horder2]
      simp only [List.length_cons, List.length_dropLast]
      have hpos : 0 < c.order.length := List.length_pos.mpr hne
      omega
    · rw [orderKeys_removeOldest hc1, hk1, if_pos]
      rw [hlenk]
      exact_mod_cast hlt
  · have hres : insertFresh c key now = pushFresh c key now := by
      simp only [insertFresh]
      rw [if_neg hev]
    have hle : (c.order.length : Int) + 1 ≤ c.maxEntries := by
      have h1 : ¬ (pushFresh c key now).maxEntries
          < ((pushFresh c key now).order.length : Int) := fun hh => hev ⟨hcap, hh⟩
      rw [horder1, hmax1] at h1
      simp only [List.length_cons, Nat.cast_add, Nat.cast_one, not_lt] at h1
      exact h1
    have hhead1 : (pushFresh c key now).order.head? = some c.nextPtr := by
      simp [horder1]
    have hfront := front_facts hc1 key (now + c.ttl) hhead1 hheap1
    rw [hres]
    refine ⟨⟨hc1, hcap, ?_⟩, rfl, rfl, ?_, hfront.1, hfront.2⟩
    · rw [horder1, hmax1]
      simp only [List.length_cons, Nat.cast_add, Nat.cast_one]
      exact hle
    · rw [hk1, if_neg]
      rw [hlenk]
      push_cast
      omega

theorem Seen_fst_iff (c : Cache) (key : String) (now : Int) :
    (Seen c key now).1 = true ↔ ∃ e, expiryOf c key = some e ∧ now < e := by
  unfold Seen expiryOf
  cases hg : mapGet c.items key with
  | none => simp
  | some element =>
    by_cases hlt : now < (c.heap element).expiresAt
    · simp [hlt]
    · simp [hlt]

theorem mem_orderKeys_iff {c : Cache} (h : Consistent c) (key : String) :
    key ∈ orderKeys c ↔ (mapGet c.items key).isSome = true := by
  constructor
  · intro hm
    obtain ⟨p, hp, hpk⟩ := List.mem_map.mp hm
    have := h.index_complete p hp
    rw [hpk] at this
    simp [this]
  · intro hs
    obtain ⟨p, hp⟩ := Option.isSome_iff_exists.mp hs
    obtain ⟨hmem, hpk⟩ := h.index_sound key p hp
    exact List.mem_map.mpr ⟨p, hmem, hpk⟩

theorem orderKeys_nodup {c : Cache} (h : Consistent c) : (orderKeys c).Nodup := by
  unfold orderKeys
  exact List.Nodup.map_on (fun x hx y hy e => key_injOn h hx hy e) h.order_nodup

theorem Seen_spec {c : Cache} (h : Inv c) (key : String) (now : Int) :
    Inv (Seen c key now).2
      ∧ (Seen c key now).2.ttl = c.ttl
      ∧ (Seen c key now).2.maxEntries = c.maxEntries
      ∧ orderKeys (Seen c key now).2 = touch c.maxEntries (orderKeys c) key
      ∧ isFront (Seen c key now).2 key
      ∧ expiryOf (Seen c key now).2 key = some (now + c.ttl) := by
  have hcons := h.consistent
  have hlenK : (orderKeys c).length = c.order.length := by simp [orderKeys]
  cases hg : mapGet c.items key with
  | none =>
    have hres : (Seen c key now).2 = insertFresh c key now := by
      simp [Seen, hg]
    have hnot : key ∉ orderKeys c := by
      rw [mem_orderKeys_iff hcons, hg]
      simp
    rw [hres]
    have hs := insertFresh_spec hcons h.cap_pos h.bounded now hg
    refine ⟨hs.1, hs.2.1, hs.2.2.1, ?_, hs.2.2.2.2.1, hs.2.2.2.2.2⟩
    rw [hs.2.2.2.1]
    simp only [touch, List.erase_of_not_mem hnot]
  | some element =>
    obtain ⟨hmem, hkey⟩ := hcons.index_sound key element hg
    have hin : key ∈ orderKeys c := by
      rw [mem_orderKeys_iff hcons, hg]
      rfl
    by_cases hlt : now < (c.heap element).expiresAt
    · have hres : (Seen c key now).2 = refresh c element now := by
        simp [Seen, hg, hlt]
      rw [hres]
      have hc2 := consistent_refresh hcons now hg
      have horder : (refresh c element now).order = element :: c.order.erase element := by
        simp [refresh, listMoveToFront, hmem]
      have hhead : (refresh c element now).order.head? = some element := by
        simp [horder]
      have hheap : (refresh c element now).heap element = ⟨key, now + c.ttl⟩ := by
        simp [refresh, hkey]
      have hfront := front_facts hc2 key (now + c.ttl) hhead hheap
      have hlen2 : (refresh c element now).order.length = c.order.length := by
        rw [horder, List.length_cons, List.length_erase_of_mem hmem]
        have : 0 < c.order.length := List.length_pos_of_mem hmem
        omega
      refine ⟨⟨hc2, h.cap_pos, ?_⟩, rfl, rfl, ?_, hfront.1, hfront.2⟩
      · rw [hlen2]
        exact h.bounded
      · rw [orderKeys_refresh hcons now hg]
        have hl : (key :: (orderKeys c).erase key).length = c.order.length := by
          rw [List.length_cons, List.length_erase_of_mem hin, hlenK]
          have : 0 < c.order.length := List.length_pos_of_mem hmem
          omega
        have hb := h.bounded
        simp only [touch]
        rw [if_neg]
        rw [hl]
        omega
    · have hres : (Seen c key now).2 = insertFresh (removeElement c element) key now := by
        simp [Seen, hg, hlt]
      rw [hres]
      have hc2 := consistent_removeElement hcons hmem
      have hk2 : mapGet (removeElement c element).items key = none := by
        simp [removeElement, mapGet_mapDelete, hkey]
      have hlen2 : ((removeElement c element).order.length : Int) ≤ c.maxEntries := by
        have h1 : (removeElement c element).order.length ≤ c.order.length := by
          show (c.order.erase element).length ≤ _
          rw [List.length_erase_of_mem hmem]
          omega
        have hb := h.bounded
        omega
      have hs := insertFresh_spec hc2 h.cap_pos hlen2 now hk2
      refine ⟨hs.1, hs.2.1, hs.2.2.1, ?_, hs.2.2.2.2.1, hs.2.2.2.2.2⟩
      rw [hs.2.2.2.1, orderKeys_removeElement hcons hmem, hkey]
      rfl

theorem inv_NewCache (maxEntries ttl : Int) : Inv (NewCache maxEntries ttl) := by
  refine ⟨⟨?_, ?_, ?_, ?_, ?_⟩, ?_, ?_⟩
  · exact List.nodup_nil
  · exact List.nodup_nil
  · intro k p hkp
    simp [NewCache, mapGet] at hkp
  · intro p hp
    simp [NewCache] at hp
  · intro p hp
    simp [NewCache] at hp
  · simp only [NewCache]
    split <;> omega
  · simp only [NewCache, List.length_nil, Nat.cast_zero]
    split <;> omega

theorem run_append (c : Cache) (calls : List (String × Int)) (call : String × Int) :
    run c (calls ++ [call]) = (Seen (run c calls) call.1 call.2).2 := by
  simp [run, List.foldl_append]

theorem run_spec {c : Cache} (h : Inv c) (calls : List (String × Int)) :
    Inv (run c calls) ∧ (run c calls).ttl = c.ttl ∧ (run c calls).maxEntries = c.maxEntries := by
  induction calls using List.reverseRecOn with
  | nil => exact ⟨h, rfl, rfl⟩
  | append_singleton calls call ih =>
    rw [run_append]
    have hs := Seen_spec ih.1 call.1 call.2
    exact ⟨hs.1, hs.2.1.trans ih.2.1, hs.2.2.1.trans ih.2.2⟩

theorem NewCache_maxEntries (maxEntries ttl : Int) :
    (NewCache maxEntries ttl).maxEntries = effectiveCapacity maxEntries := rfl

/-! ## Recency order and the call history -/

theorem lastSeenAt_le (calls : List (String × Int)) (key : String) :
    lastSeenAt calls key ≤ calls.length := by
  unfold lastSeenAt
  omega

theorem lastSeenAt_append_self (calls : List (String × Int)) (key : String) (now : Int) :
    lastSeenAt (calls ++ [(key, now)]) key = calls.length + 1 := by
  simp [lastSeenAt, List.indexOf_cons_self]

theorem lastSeenAt_append_ne (calls : List (String × Int)) {key k : String} (now : Int)
    (hne : k ≠ key) : lastSeenAt (calls ++ [(k, now)]) key = lastSeenAt calls key := by
  simp only [lastSeenAt, List.reverse_append, List.reverse_cons, List.reverse_nil, List.nil_append,
    List.singleton_append, List.map_cons, List.length_append, List.length_singleton]
  rw [List.indexOf_cons_ne _ hne]
  omega

/-- The recency list of a reachable cache is ordered by the position of the
most recent call on each key, most recent first. -/
theorem orderKeys_sorted (maxEntries ttl : Int) (calls : List (String × Int)) :
    (orderKeys (run (NewCache maxEntries ttl) calls)).Pairwise
      (fun a b => lastSeenAt calls b < lastSeenAt calls a) := by
  induction calls using List.reverseRecOn with
  | nil => simp [run, NewCache, orderKeys]
  | append_singleton calls call ih =>
    obtain ⟨k, now⟩ := call
    rw [run_append]
    have hinv := (run_spec (inv_NewCache maxEntries ttl) calls).1
    have hs := Seen_spec hinv k now
    rw [hs.2.2.2.1]
    have hnd := orderKeys_nodup hinv.consistent
    have hbase : (k :: (orderKeys (run (NewCache maxEntries ttl) calls)).erase k).Pairwise
        (fun a b => lastSeenAt (calls ++ [(k, now)]) b < lastSeenAt (calls ++ [(k, now)]) a) := by
      rw [List.pairwise_cons]
      constructor
      · intro b hb
        have hbk : b ≠ k := by
          rintro rfl
          exact (List.Nodup.not_mem_erase hnd) hb
        rw [lastSeenAt_append_self, lastSeenAt_append_ne calls now (Ne.symm hbk)]
        have := lastSeenAt_le calls b
        omega
      · have hsub : ((orderKeys (run (NewCache maxEntries ttl) calls)).erase k).Pairwise
            (fun a b => lastSeenAt calls b < lastSeenAt calls a) :=
          List.Pairwise.sublist (List.erase_sublist _ _) ih
        refine List.Pairwise.imp_of_mem ?_ hsub
        intro a b ha hb hab
        have hak : a ≠ k := by
          rintro rfl
          exact (List.Nodup.not_mem_erase hnd) ha
        have hbk : b ≠ k := by
          rintro rfl
          exact (List.Nodup.not_mem_erase hnd) hb
        rw [lastSeenAt_append_ne calls now (Ne.symm hak),
          lastSeenAt_append_ne calls now (Ne.symm hbk)]
        exact hab
    simp only [touch]
    split
    · exact List.Pairwise.sublist (List.dropLast_sublist _) hbase
    · exact hbase

/-- Distinct keys within capacity are all kept, newest first. -/
theorem orderKeys_distinct (maxEntries ttl : Int) (calls : List (String × Int))
    (hnd : (calls.map Prod.fst).Nodup)
    (hlen : (calls.length : Int) ≤ (NewCache maxEntries ttl).maxEntries) :
    orderKeys (run (NewCache maxEntries ttl) calls) = (calls.map Prod.fst).reverse := by
  induction calls using List.reverseRecOn with
  | nil => simp [run, NewCache, orderKeys]
  | append_singleton calls call ih =>
    obtain ⟨k, now⟩ := call
    rw [List.map_append, List.nodup_append] at hnd
    obtain ⟨hnd1, _, hdisj⟩ := hnd
    have hk : k ∉ calls.map Prod.fst := fun hm => hdisj hm (by simp)
    have hlen2 : (calls.length : Int) + 1 ≤ (NewCache maxEntries ttl).maxEntries := by
      simpa using hlen
    have ih2 := ih hnd1 (by omega)
    have hr := run_spec (inv_NewCache maxEntries ttl) calls
    have hs := Seen_spec hr.1 k now
    rw [run_append, hs.2.2.2.1, ih2, hr.2.2]
    have hk2 : k ∉ (calls.map Prod.fst).reverse := by simpa using hk
    simp only [touch, List.erase_of_not_mem hk2]
    rw [if_neg]
    · simp
    · simp only [List.length_cons, List.length_reverse, List.length_map]
      push_cast
      omega

/-! ## The claims on the dedup cache -/

/-- C1: for every cache state reached from `NewCache` by `Seen` calls, every key
`k` and every clock reading `now`, `Seen k` returns true exactly when `k` is
stored with `expiresAt` strictly after `now` (and false exactly when `k` is
absent or stored with `expiresAt` at or before `now`); in both cases `k` is
afterwards stored with `expiresAt = now + ttl` and is the most recently used
entry (its element is at the front of the recency list). -/
theorem C1_Seen_contract (maxEntries ttl : Int) (calls : List (String × Int))
    (k : String) (now : Int) :
    ((Seen (run (NewCache maxEntries ttl) calls) k now).1 = true
        ↔ ∃ e, expiryOf (run (NewCache maxEntries ttl) calls) k = some e ∧ now < e)
      ∧ ((Seen (run (NewCache maxEntries ttl) calls) k now).1 = false
        ↔ (expiryOf (run (NewCache maxEntries ttl) calls) k = none
            ∨ ∃ e, expiryOf (run (NewCache maxEntries ttl) calls) k = some e ∧ e ≤ now))
      ∧ expiryOf (Seen (run (NewCache maxEntries ttl) calls) k now).2 k
          = some (now + (run (NewCache maxEntries ttl) calls).ttl)
      ∧ isFront (Seen (run (NewCache maxEntries ttl) calls) k now).2 k := by
  have hinv := (run_spec (inv_NewCache maxEntries ttl) calls).1
  have hs := Seen_spec hinv k now
  have hiff := Seen_fst_iff (run (NewCache maxEntries ttl) calls) k now
  refine ⟨hiff, ?_, hs.2.2.2.2.2, hs.2.2.2.2.1⟩
  rw [← Bool.not_eq_true, hiff]
  cases he : expiryOf (run (NewCache maxEntries ttl) calls) k with
  | none => simp
  | some e0 =>
    constructor
    · intro h
      refine Or.inr ⟨e0, rfl, ?_⟩
      by_contra hlt
      exact h ⟨e0, rfl, by omega⟩
    · rintro (h | ⟨e, he1, he2⟩)
      · exact Option.noConfusion h
      · rintro ⟨e1, he3, he4⟩
        have h1 := Option.some.inj he1
        have h3 := Option.some.inj he3
        omega

/-- C2: on a freshly constructed cache, for every key `k` and clock readings
`t0 ≤ t1 < t0 + ttl` and `t2 ≥ t1 + ttl` (with `ttl` the effective TTL of the
cache), `Seen k` at `t0` returns false, `Seen k` at `t1` returns true and
`Seen k` at `t2` returns false again. -/
theorem C2_false_true_false (maxEntries ttl : Int) (k : String) (t0 t1 t2 : Int)
    (_h01 : t0 ≤ t1) (h1 : t1 < t0 + (NewCache maxEntries ttl).ttl)
    (h2 : t1 + (NewCache maxEntries ttl).ttl ≤ t2) :
    (Seen (NewCache maxEntries ttl) k t0).1 = false
      ∧ (Seen (Seen (NewCache maxEntries ttl) k t0).2 k t1).1 = true
      ∧ (Seen (Seen (Seen (NewCache maxEntries ttl) k t0).2 k t1).2 k t2).1 = false := by
  have h0 := inv_NewCache maxEntries ttl
  have hs0 := Seen_spec h0 k t0
  have hs1 := Seen_spec hs0.1 k t1
  refine ⟨?_, ?_, ?_⟩
  · rw [← Bool.not_eq_true, Seen_fst_iff]
    rintro ⟨e, he, _⟩
    simp [expiryOf, NewCache, mapGet] at he
  · rw [Seen_fst_iff]
    exact ⟨_, hs0.2.2.2.2.2, h1⟩
  · rw [← Bool.not_eq_true, Seen_fst_iff]
    rintro ⟨e, he, hlt⟩
    rw [hs1.2.2.2.2.2, hs0.2.1] at he
    have := Option.some.inj he
    omega

/-- Witness of C2: capacity 2, TTL 10, key "a" seen at times 0, 5 and 15. -/
theorem C2_false_true_false_witness :
    (0 : Int) ≤ 5
      ∧ (5 : Int) < 0 + (NewCache 2 10).ttl
      ∧ (5 : Int) + (NewCache 2 10).ttl ≤ 15
      ∧ (Seen (NewCache 2 10) "a" 0).1 = false
      ∧ (Seen (Seen (NewCache 2 10) "a" 0).2 "a" 5).1 = true
      ∧ (Seen (Seen (Seen (NewCache 2 10) "a" 0).2 "a" 5).2 "a" 15).1 = false :=
  ⟨by decide, by decide, by decide,
    C2_false_true_false 2 10 "a" 0 5 15 (by decide) (by decide) (by decide)⟩

theorem has_iff_mem_orderKeys {c : Cache} (h : Consistent c) (key : String) :
    has c key = true ↔ key ∈ orderKeys c := by
  unfold has
  exact (mem_orderKeys_iff h key).symm

/-- C3: when a reachable cache holds exactly `maxEntries` keys, `Seen` of a
key `k` that is not stored removes exactly one key, the `victim`: the victim
was stored and is gone, every other stored key is kept and had a strictly more
recent `Seen` call (insert or repeat hit) than the victim, `k` is stored, and
nothing else is stored. In particular, when the calls so far inserted
`maxEntries` distinct keys, the victim is the first of them, so that after
`maxEntries + 1` distinct keys the only key missing is the first. -/
theorem C3_evicts_least_recently_touched (maxEntries ttl : Int)
    (calls : List (String × Int)) (k : String) (now : Int)
    (hfull : ((run (NewCache maxEntries ttl) calls).order.length : Int)
      = (run (NewCache maxEntries ttl) calls).maxEntries)
    (hnew : has (run (NewCache maxEntries ttl) calls) k = false) :
    ∃ victim,
      has (run (NewCache maxEntries ttl) calls) victim = true
      ∧ has (Seen (run (NewCache maxEntries ttl) calls) k now).2 victim = false
      ∧ (∀ key, has (run (NewCache maxEntries ttl) calls) key = true → key ≠ victim →
          has (Seen (run (NewCache maxEntries ttl) calls) k now).2 key = true
            ∧ lastSeenAt calls victim < lastSeenAt calls key)
      ∧ has (Seen (run (NewCache maxEntries ttl) calls) k now).2 k = true
      ∧ (∀ key, has (Seen (run (NewCache maxEntries ttl) calls) k now).2 key = true →
          key = k ∨ has (run (NewCache maxEntries ttl) calls) key = true)
      ∧ ((calls.map Prod.fst).Nodup →
          (calls.length : Int) = (run (NewCache maxEntries ttl) calls).maxEntries →
          (calls.map Prod.fst).head? = some victim) := by
  have hfill : (calls.map Prod.fst).Nodup →
      (calls.length : Int) = (run (NewCache maxEntries ttl) calls).maxEntries →
      orderKeys (run (NewCache maxEntries ttl) calls) = (calls.map Prod.fst).reverse := by
    intro hnd hlen
    rw [(run_spec (inv_NewCache maxEntries ttl) calls).2.2] at hlen
    exact orderKeys_distinct maxEntries ttl calls hnd (by omega)
  have hinv := (run_spec (inv_NewCache maxEntries ttl) calls).1
  have hs := Seen_spec hinv k now
  have hsorted := orderKeys_sorted maxEntries ttl calls
  have hnd := orderKeys_nodup hinv.consistent
  generalize run (NewCache maxEntries ttl) calls = c at *
  have hc := hinv.consistent
  have hc2 := hs.1.consistent
  have hkL : k ∉ orderKeys c := by
    intro hm
    have := (has_iff_mem_orderKeys hc k).mpr hm
    rw [hnew] at this
    exact Bool.noConfusion this
  have hlenK : (orderKeys c).length = c.order.length := by simp [orderKeys]
  have hne : orderKeys c ≠ [] := by
    intro e
    have h0 : c.order.length = 0 := by rw [← hlenK, e]; rfl
    have := hinv.cap_pos
    rw [h0] at hfull
    simp at hfull
    omega
  have hkeys : orderKeys (Seen c k now).2 = k :: (orderKeys c).dropLast := by
    rw [hs.2.2.2.1]
    simp only [touch, List.erase_of_not_mem hkL]
    rw [if_pos, List.dropLast_cons_of_ne_nil hne]
    rw [List.length_cons, hlenK]
    push_cast
    omega
  have hsplit : (orderKeys c).dropLast ++ [(orderKeys c).getLast hne] = orderKeys c :=
    List.dropLast_append_getLast hne
  have hvnot : (orderKeys c).getLast hne ∉ (orderKeys c).dropLast := by
    intro hm
    rw [← hsplit] at hnd
    exact (List.disjoint_of_nodup_append hnd) hm (List.mem_singleton_self _)
  have hvmem : (orderKeys c).getLast hne ∈ orderKeys c := List.getLast_mem hne
  have hrecent : ∀ a, a ∈ (orderKeys c).dropLast →
      lastSeenAt calls ((orderKeys c).getLast hne) < lastSeenAt calls a := by
    rw [← hsplit] at hsorted
    intro a ha
    exact (List.pairwise_append.mp hsorted).2.2 a ha _ (List.mem_singleton_self _)
  have hmemsplit : ∀ key, key ∈ orderKeys c → key ≠ (orderKeys c).getLast hne →
      key ∈ (orderKeys c).dropLast := by
    intro key hkey hkv
    rw [← hsplit] at hkey
    rcases List.mem_append.mp hkey with h | h
    · exact h
    · exact absurd (List.mem_singleton.mp h) hkv
  refine ⟨(orderKeys c).getLast hne, ?_, ?_, ?_, ?_, ?_, ?_⟩
  · exact (has_iff_mem_orderKeys hc _).mpr hvmem
  · rw [← Bool.not_eq_true, has_iff_mem_orderKeys hc2, hkeys]
    intro hm
    rcases List.mem_cons.mp hm with h | h
    · exact hkL (h ▸ hvmem)
    · exact hvnot h
  · intro key hkey hkv
    have hmem := hmemsplit key ((has_iff_mem_orderKeys hc key).mp hkey) hkv
    refine ⟨?_, hrecent key hmem⟩
    rw [has_iff_mem_orderKeys hc2, hkeys]
    exact List.mem_cons_of_mem _ hmem
  · rw [has_iff_mem_orderKeys hc2, hkeys]
    exact List.mem_cons_self _ _
  · intro key hkey
    rw [has_iff_mem_orderKeys hc2, hkeys] at hkey
    rcases List.mem_cons.mp hkey with h | h
    · exact Or.inl h
    · exact Or.inr ((has_iff_mem_orderKeys hc key).mpr (List.mem_of_mem_dropLast h))
  · intro hdist hlen
    have hrev := hfill hdist hlen
    have hlast := List.getLast?_eq_getLast (orderKeys c) hne
    rw [← hlast, hrev, List.getLast?_reverse]

/-- C4: after every sequence of `Seen` calls on `NewCache maxEntries ttl` the
recency list and the key index each hold at most the effective capacity
(`maxEntries`, or 100000 when that is not positive), they hold exactly the
same keys, and no key and no element is stored twice. -/
theorem C4_capacity_and_index_agree (maxEntries ttl : Int) (calls : List (String × Int)) :
    ((run (NewCache maxEntries ttl) calls).order.length : Int) ≤ effectiveCapacity maxEntries
      ∧ ((run (NewCache maxEntries ttl) calls).items.length : Int) ≤ effectiveCapacity maxEntries
      ∧ (∀ key, key ∈ itemKeys (run (NewCache maxEntries ttl) calls)
          ↔ key ∈ orderKeys (run (NewCache maxEntries ttl) calls))
      ∧ (itemKeys (run (NewCache maxEntries ttl) calls)).Nodup
      ∧ (orderKeys (run (NewCache maxEntries ttl) calls)).Nodup
      ∧ (run (NewCache maxEntries ttl) calls).order.Nodup := by
  have hr := run_spec (inv_NewCache maxEntries ttl) calls
  have hcapeq : (run (NewCache maxEntries ttl) calls).maxEntries = effectiveCapacity maxEntries := by
    rw [hr.2.2, NewCache_maxEntries]
  have hinv := hr.1
  rw [← hcapeq]
  generalize run (NewCache maxEntries ttl) calls = c at *
  have hc := hinv.consistent
  have hsame : ∀ key, key ∈ itemKeys c ↔ key ∈ orderKeys c := by
    intro key
    rw [mem_orderKeys_iff hc, mapGet_isSome_iff]
    rfl
  have hlen : c.items.length ≤ c.order.length := by
    have h1 : (itemKeys c).length ≤ (orderKeys c).length :=
      (List.subperm_of_subset hc.items_nodup (fun key hk => (hsame key).mp hk)).length_le
    simpa [itemKeys, orderKeys] using h1
  refine ⟨hinv.bounded, ?_, hsame, hc.items_nodup, orderKeys_nodup hc, hc.order_nodup⟩
  have := hinv.bounded
  omega

/-- Witness of C3: capacity 2, calls on "a", "b", "a" (a repeat hit), then a
call on the new key "c": the cache is full and "c" is not stored. -/
theorem C3_evicts_least_recently_touched_witness :
    ((run (NewCache 2 10) [("a", 0), ("b", 1), ("a", 2)]).order.length : Int)
        = (run (NewCache 2 10) [("a", 0), ("b", 1), ("a", 2)]).maxEntries
      ∧ has (run (NewCache 2 10) [("a", 0), ("b", 1), ("a", 2)]) "c" = false
      ∧ ∃ victim,
        has (run (NewCache 2 10) [("a", 0), ("b", 1), ("a", 2)]) victim = true
        ∧ has (Seen (run (NewCache 2 10) [("a", 0), ("b", 1), ("a", 2)]) "c" 3).2 victim = false
        ∧ (∀ key, has (run (NewCache 2 10) [("a", 0), ("b", 1), ("a", 2)]) key = true →
            key ≠ victim →
            has (Seen (run (NewCache 2 10) [("a", 0), ("b", 1), ("a", 2)]) "c" 3).2 key = true
              ∧ lastSeenAt [("a", 0), ("b", 1), ("a", 2)] victim
                  < lastSeenAt [("a", 0), ("b", 1), ("a", 2)] key)
        ∧ has (Seen (run (NewCache 2 10) [("a", 0), ("b", 1), ("a", 2)]) "c" 3).2 "c" = true
        ∧ (∀ key, has (Seen (run (NewCache 2 10) [("a", 0), ("b", 1), ("a", 2)]) "c" 3).2 key = true →
            key = "c" ∨ has (run (NewCache 2 10) [("a", 0), ("b", 1), ("a", 2)]) key = true)
        ∧ ((([("a", 0), ("b", 1), ("a", 2)] : List (String × Int)).map Prod.fst).Nodup →
            ((([("a", 0), ("b", 1), ("a", 2)] : List (String × Int)).length : Nat) : Int)
              = (run (NewCache 2 10) [("a", 0), ("b", 1), ("a", 2)]).maxEntries →
            (([("a", 0), ("b", 1), ("a", 2)] : List (String × Int)).map Prod.fst).head?
              = some victim) :=
  ⟨by decide, by decide,
    C3_evicts_least_recently_touched 2 10 [("a", 0), ("b", 1), ("a", 2)] "c" 3
      (by decide) (by decide)⟩

/-! ## Expiry order of the recency list -/

theorem insertFresh_eq_evicted (c : Cache) (key : String) (now : Int) :
    insertFresh c key now
      = (match evictedAfterPush c key now with
        | some element => removeElement (pushFresh c key now) element
        | none => pushFresh c key now) := by
  unfold insertFresh evictedAfterPush removeOldest
  by_cases h : 0 < (pushFresh c key now).maxEntries
      ∧ (pushFresh c key now).maxEntries < ((pushFresh c key now).order.length : Int)
  · simp only [h, and_self, if_true]
  · simp only [h, if_false]

theorem orderEntries_pushFresh {c : Cache} (h : Consistent c) (key : String) (now : Int) :
    orderEntries (pushFresh c key now) = ⟨key, now + c.ttl⟩ :: orderEntries c := by
  have hmap : c.order.map (pushFresh c key now).heap = c.order.map c.heap := by
    apply List.map_congr_left
    intro p hp
    exact heap_pushFresh_of_mem h key now hp
  have ho : (pushFresh c key now).order = c.nextPtr :: c.order := rfl
  unfold orderEntries
  rw [ho, List.map_cons, hmap]
  simp [pushFresh]

theorem insertFresh_entries {c : Cache} (h : Consistent c) {key : String} (now : Int)
    (hk : mapGet c.items key = none) :
    ∃ rest, orderEntries (insertFresh c key now) = ⟨key, now + c.ttl⟩ :: rest
      ∧ rest.Sublist (orderEntries c) := by
  have hc1 := consistent_pushFresh h now hk
  have he1 := orderEntries_pushFresh h key now
  unfold insertFresh
  by_cases hev : 0 < (pushFresh c key now).maxEntries
      ∧ (pushFresh c key now).maxEntries < ((pushFresh c key now).order.length : Int)
  · simp only [hev, and_self, if_true]
    have hheap : (removeOldest (pushFresh c key now)).heap = (pushFresh c key now).heap := by
      unfold removeOldest
      cases listBack (pushFresh c key now).order <;> rfl
    have hent : orderEntries (removeOldest (pushFresh c key now))
        = (orderEntries (pushFresh c key now)).dropLast := by
      unfold orderEntries
      rw [hheap, order_removeOldest hc1, List.map_dropLast]
    rw [hent, he1]
    cases hl : orderEntries c with
    | nil =>
      exfalso
      have hlen : c.order.length = 0 := by
        have := congrArg List.length hl
        simpa [orderEntries] using this
      have ho : (pushFresh c key now).order.length = c.order.length + 1 := rfl
      have hm := hev.1
      have hlt := hev.2
      rw [ho, hlen] at hlt
      simp at hlt
      omega
    | cons a t =>
      refine ⟨(a :: t).dropLast, ?_, List.dropLast_sublist _⟩
      rw [List.dropLast_cons_of_ne_nil (by simp)]
  · simp only [hev, if_false]
    exact ⟨orderEntries c, he1, List.Sublist.refl _⟩

end dedup

namespace ingest

open source

/-! ## The shape of a scan pass -/

theorem statTrace_eq_Stat (target : TargetRef) :
    ∀ ev, ev ∈ statTrace target → ev = Event.Stat := by
  intro ev hev
  unfold statTrace at hev
  split at hev
  · simpa using hev
  · simp at hev

theorem openWithFallback_events (src : LogSource) (target : TargetRef) (startOffset : Int) :
    ∀ ev, ev ∈ (openWithFallback src target startOffset).1 →
      ev.isWrite = false ∧ ev.isParse = false := by
  intro ev hev
  unfold openWithFallback at hev
  split at hev
  · simp at hev
    subst hev
    exact ⟨rfl, rfl⟩
  · split at hev
    · split at hev
      · simp at hev
        rcases hev with h | h <;> subst h <;> exact ⟨rfl, rfl⟩
      · simp at hev
        rcases hev with h | h | h <;> subst h <;> exact ⟨rfl, rfl⟩
      · split at hev
        · simp at hev
          rcases hev with h | h | h <;> subst h <;> exact ⟨rfl, rfl⟩
        · simp at hev
          rcases hev with h | h | h <;> subst h <;> exact ⟨rfl, rfl⟩
    · simp at hev
      subst hev
      exact ⟨rfl, rfl⟩

theorem parseAndPersist_err (env : Env) (p : LogParser) (websiteID targetKey : String)
    (target : TargetRef) (m : TargetMeta) (state : TargetState) (ok : Bool)
    (startOffset : Int) (reader : List Nat)
    (h : (parseAndPersist env p websiteID targetKey target m state ok startOffset
      reader).err ≠ none) :
    (parseAndPersist env p websiteID targetKey target m state ok startOffset reader).p = p
      ∧ (parseAndPersist env p websiteID targetKey target m state ok startOffset
          reader).trace = [Event.gzipNewReader] := by
  unfold parseAndPersist at h ⊢
  by_cases hc : m.Compressed = true
  · simp only [hc, if_true] at h ⊢
    cases hg : env.gzipNewReader reader with
    | error err => simp
    | ok gz => simp [hg] at h
  · simp [hc] at h

theorem readAndParse_err (env : Env) (p : LogParser) (websiteID targetKey : String)
    (src : LogSource) (target : TargetRef) (m : TargetMeta) (state : TargetState) (ok : Bool)
    (h : (readAndParse env p websiteID targetKey src target m state ok).err ≠ none) :
    (readAndParse env p websiteID targetKey src target m state ok).p = p
      ∧ ∀ ev, ev ∈ (readAndParse env p websiteID targetKey src target m state ok).trace →
          ev.isWrite = false := by
  have hopens := openWithFallback_events src target (startOffsetOf ok m state)
  unfold readAndParse at h ⊢
  rcases hres : openWithFallback src target (startOffsetOf ok m state) with ⟨opens, res⟩
  rw [hres] at h hopens
  rcases res with err | reader
  · exact ⟨rfl, fun ev hev => (hopens ev hev).1⟩
  · cases reader with
    | none => simp at h
    | some reader =>
      simp only [ScanResult.after] at h ⊢
      have hp := parseAndPersist_err _ _ _ _ _ _ _ _ _ _ h
      refine ⟨hp.1, ?_⟩
      rw [hp.2]
      intro ev hev
      rcases List.mem_append.mp hev with h1 | h1
      · exact (hopens ev h1).1
      · simp at h1
        subst h1
        rfl

theorem scanFrom_err (env : Env) (p : LogParser) (websiteID targetKey : String)
    (src : LogSource) (target : TargetRef) (m : TargetMeta) (state : TargetState) (ok : Bool)
    (h : (scanFrom env p websiteID targetKey src target m state ok).err ≠ none) :
    (scanFrom env p websiteID targetKey src target m state ok).p = p
      ∧ ∀ ev, ev ∈ (scanFrom env p websiteID targetKey src target m state ok).trace →
          ev.isWrite = false := by
  unfold scanFrom at h ⊢
  by_cases h1 : m.Compressed = true ∧ ok = true ∧ unchanged m state = true
  · rw [if_pos h1] at h
    simp at h
  · rw [if_neg h1] at h ⊢
    by_cases h2 : m.Compressed = false ∧ 0 < m.Size ∧ m.Size ≤ startOffsetOf ok m state
    · rw [if_pos h2] at h
      simp at h
    · rw [if_neg h2] at h ⊢
      exact readAndParse_err _ _ _ _ _ _ _ _ _ h

/-- A pass that returns an error leaves the store untouched and its trace
holds no state write. -/
theorem scanObserved_err (env : Env) (p : LogParser) (websiteID targetKey : String)
    (src : LogSource) (target : TargetRef) (state0 : TargetState) (ok0 : Bool)
    (m : TargetMeta)
    (h : (scanObserved env p websiteID targetKey src target state0 ok0 m).err ≠ none) :
    (scanObserved env p websiteID targetKey src target state0 ok0 m).p = p
      ∧ ∀ ev, ev ∈ (scanObserved env p websiteID targetKey src target state0 ok0 m).trace →
          ev.isWrite = false := by
  unfold scanObserved at h ⊢
  simp only at h ⊢
  split
  · rename_i hr
    rw [if_pos hr] at h
    exact scanFrom_err _ _ _ _ _ _ _ _ _ h
  · rename_i hr
    rw [if_neg hr] at h
    exact scanFrom_err _ _ _ _ _ _ _ _ _ h

theorem mem_after_statTrace (target : TargetRef) (r : ScanResult) (ev : Event)
    (hne : ev ≠ Event.Stat) :
    ev ∈ (r.after (statTrace target)).trace ↔ ev ∈ r.trace := by
  simp only [ScanResult.after, List.mem_append]
  constructor
  · rintro (h | h)
    · exact absurd (statTrace_eq_Stat target ev h) hne
    · exact h
  · exact Or.inr

theorem openWithFallback_head (src : LogSource) (target : TargetRef) (startOffset : Int) :
    ∃ rest, (openWithFallback src target startOffset).1
        = Event.OpenRange startOffset (-1) :: rest
      ∧ ∀ ev, ev ∈ rest → ev = Event.OpenRange 0 (-1) ∨ ev = Event.skipReaderBytes startOffset := by
  unfold openWithFallback
  split
  · exact ⟨[], rfl, by simp⟩
  · split
    · split
      · exact ⟨_, rfl, by simp⟩
      · exact ⟨_, rfl, by simp⟩
      · split
        · exact ⟨_, rfl, by simp⟩
        · exact ⟨_, rfl, by simp⟩
    · exact ⟨[], rfl, by simp⟩

theorem openWithFallback_zero (src : LogSource) (target : TargetRef) :
    (openWithFallback src target 0).1 = [Event.OpenRange 0 (-1)] := by
  unfold openWithFallback
  split
  · rfl
  · simp

/-- What the parse-and-persist step does, call by call. -/
theorem parseAndPersist_spec (env : Env) (p : LogParser) (websiteID targetKey : String)
    (target : TargetRef) (m : TargetMeta) (state : TargetState) (ok : Bool)
    (startOffset : Int) (reader : List Nat) :
    (∀ ev, ev ∈ (parseAndPersist env p websiteID targetKey target m state ok startOffset
        reader).trace → ev.isOpen = false ∧ ev ≠ Event.Stat)
      ∧ (∀ rd window, Event.parseLogLines rd window ∈ (parseAndPersist env p websiteID
          targetKey target m state ok startOffset reader).trace → window = windowOf ok state)
      ∧ (∀ w k st, Event.setTargetState w k st ∈ (parseAndPersist env p websiteID targetKey
          target m state ok startOffset reader).trace →
          w = websiteID ∧ k = targetKey ∧ ∃ rd, Event.parseLogLines rd (windowOf ok state)
              ∈ (parseAndPersist env p websiteID targetKey target m state ok startOffset
                  reader).trace
            ∧ st = persisted m state startOffset
                (env.parseLogLines rd websiteID target.SourceID (windowOf ok state))) := by
  unfold parseAndPersist
  by_cases hc : m.Compressed = true
  · simp only [hc, if_true]
    cases hg : env.gzipNewReader reader with
    | error err =>
      refine ⟨?_, ?_, ?_⟩
      · intro ev hev
        simp at hev
        subst hev
        exact ⟨rfl, by simp⟩
      · intro rd window hev
        simp at hev
      · intro w k st hev
        simp at hev
    | ok gz =>
      refine ⟨?_, ?_, ?_⟩
      · intro ev hev
        simp at hev
        rcases hev with h | h | h <;> subst h <;> exact ⟨rfl, by simp⟩
      · intro rd window hev
        simp at hev
        exact hev.2
      · intro w k st hev
        simp at hev
        obtain ⟨hw, hk, hst⟩ := hev
        refine ⟨hw, hk, gz, by simp, ?_⟩
        rw [hst]
  · simp only [hc, if_false]
    refine ⟨?_, ?_, ?_⟩
    · intro ev hev
      simp at hev
      rcases hev with h | h <;> subst h <;> exact ⟨rfl, by simp⟩
    · intro rd window hev
      simp at hev
      exact hev.2
    · intro w k st hev
      simp at hev
      obtain ⟨hw, hk, hst⟩ := hev
      refine ⟨hw, hk, reader, by simp, ?_⟩
      rw [hst]

/-- What the acquire-parse-persist part of a pass does, call by call: it
first opens the range at the start offset, every other open is the reopen at
0, every parser call uses the window of the pass, and every state write
follows a parser call and stores the state computed from its outputs. -/
theorem readAndParse_spec (env : Env) (p : LogParser) (websiteID targetKey : String)
    (src : LogSource) (target : TargetRef) (m : TargetMeta) (state : TargetState) (ok : Bool) :
    (∃ rest, (readAndParse env p websiteID targetKey src target m state ok).trace
        = Event.OpenRange (startOffsetOf ok m state) (-1) :: rest)
      ∧ (∀ ev, ev ∈ (readAndParse env p websiteID targetKey src target m state ok).trace →
          ev ≠ Event.Stat)
      ∧ (∀ a b, Event.OpenRange a b ∈ (readAndParse env p websiteID targetKey src target m
          state ok).trace → (a = startOffsetOf ok m state ∨ a = 0) ∧ b = -1)
      ∧ (∀ rd window, Event.parseLogLines rd window ∈ (readAndParse env p websiteID targetKey
          src target m state ok).trace → window = windowOf ok state)
      ∧ (∀ w k st, Event.setTargetState w k st ∈ (readAndParse env p websiteID targetKey src
          target m state ok).trace →
          w = websiteID ∧ k = targetKey ∧ ∃ rd, Event.parseLogLines rd (windowOf ok state)
              ∈ (readAndParse env p websiteID targetKey src target m state ok).trace
            ∧ st = persisted m state (startOffsetOf ok m state)
                (env.parseLogLines rd websiteID target.SourceID (windowOf ok state))) := by
  obtain ⟨rest, hrest, hrestmem⟩ := openWithFallback_head src target (startOffsetOf ok m state)
  have hopens := openWithFallback_events src target (startOffsetOf ok m state)
  have hpp := parseAndPersist_spec env p websiteID targetKey target m state ok
    (startOffsetOf ok m state)
  unfold readAndParse
  rcases hres : openWithFallback src target (startOffsetOf ok m state) with ⟨opens, res⟩
  rw [hres] at hrest hopens
  simp only at hrest
  have hopenStat : ∀ ev, ev ∈ opens → ev ≠ Event.Stat := by
    intro ev hev
    rw [hrest] at hev
    rcases List.mem_cons.mp hev with h | h
    · subst h; simp
    · rcases hrestmem ev h with h | h <;> subst h <;> simp
  have hopenAt : ∀ a b, Event.OpenRange a b ∈ opens →
      (a = startOffsetOf ok m state ∨ a = 0) ∧ b = -1 := by
    intro a b hev
    rw [hrest] at hev
    rcases List.mem_cons.mp hev with h | h
    · simp at h
      exact ⟨Or.inl h.1, h.2⟩
    · rcases hrestmem _ h with h | h
      · simp at h
        exact ⟨Or.inr h.1, h.2⟩
      · simp at h
  have hnoparse : ∀ rd window, Event.parseLogLines rd window ∉ opens := by
    intro rd window hev
    have := (hopens _ hev).2
    simp [Event.isParse] at this
  have hnowrite : ∀ w k st, Event.setTargetState w k st ∉ opens := by
    intro w k st hev
    have := (hopens _ hev).1
    simp [Event.isWrite] at this
  have hsimple : ∀ (e : Option Error),
      (∃ rest, ({ err := e, p := p, trace := opens } : ScanResult).trace
          = Event.OpenRange (startOffsetOf ok m state) (-1) :: rest)
        ∧ (∀ ev, ev ∈ ({ err := e, p := p, trace := opens } : ScanResult).trace →
            ev ≠ Event.Stat)
        ∧ (∀ a b, Event.OpenRange a b ∈ ({ err := e, p := p, trace := opens } : ScanResult).trace →
            (a = startOffsetOf ok m state ∨ a = 0) ∧ b = -1)
        ∧ (∀ rd window, Event.parseLogLines rd window
            ∈ ({ err := e, p := p, trace := opens } : ScanResult).trace →
            window = windowOf ok state)
        ∧ (∀ w k st, Event.setTargetState w k st
            ∈ ({ err := e, p := p, trace := opens } : ScanResult).trace →
            w = websiteID ∧ k = targetKey ∧ ∃ rd, Event.parseLogLines rd (windowOf ok state)
                ∈ ({ err := e, p := p, trace := opens } : ScanResult).trace
              ∧ st = persisted m state (startOffsetOf ok m state)
                  (env.parseLogLines rd websiteID target.SourceID (windowOf ok state))) :=
    fun e => ⟨⟨rest, hrest⟩, hopenStat, hopenAt,
      fun rd window hev => absurd hev (hnoparse rd window),
      fun w k st hev => absurd hev (hnowrite w k st)⟩
  rcases res with err | reader
  · exact hsimple (some err)
  · cases reader with
    | none => exact hsimple none
    | some reader =>
      have hpp := hpp reader
      simp only [ScanResult.after]
      refine ⟨⟨rest ++ _, by rw [hrest]; rfl⟩, ?_, ?_, ?_, ?_⟩
      · intro ev hev
        rcases List.mem_append.mp hev with h | h
        · exact hopenStat ev h
        · exact (hpp.1 ev h).2
      · intro a b hev
        rcases List.mem_append.mp hev with h | h
        · exact hopenAt a b h
        · have := (hpp.1 _ h).1
          simp [Event.isOpen] at this
      · intro rd window hev
        rcases List.mem_append.mp hev with h | h
        · exact absurd h (hnoparse rd window)
        · exact hpp.2.1 rd window h
      · intro w k st hev
        rcases List.mem_append.mp hev with h | h
        · exact absurd h (hnowrite w k st)
        · obtain ⟨hw, hk, rd, hrd, hst⟩ := hpp.2.2 w k st h
          exact ⟨hw, hk, rd, List.mem_append_right _ hrd, hst⟩

theorem scanTarget_stored (env : Env) (p : LogParser) (websiteID : String) (src : LogSource)
    (target : TargetRef) (st : TargetState) (m : TargetMeta)
    (hst : p.targetStates websiteID (buildTargetStateKey target.SourceID target.Key) = some st)
    (hm : observeMeta src target = Except.ok m) :
    scanTarget env p websiteID src target
      = (scanObserved env p websiteID (buildTargetStateKey target.SourceID target.Key) src
          target st true m).after (statTrace target) := by
  unfold scanTarget
  simp only [hm, getTargetState, hst]

theorem scanFrom_new (env : Env) (p : LogParser) (websiteID targetKey : String)
    (src : LogSource) (target : TargetRef) (m : TargetMeta) (state : TargetState) :
    scanFrom env p websiteID targetKey src target m state false
      = readAndParse env p websiteID targetKey src target m state false := by
  unfold scanFrom
  have h1 : ¬ (m.Compressed = true ∧ false = true ∧ unchanged m state = true) := by simp
  have h2 : ¬ (m.Compressed = false ∧ 0 < m.Size ∧ m.Size ≤ startOffsetOf false m state) := by
    simp only [startOffsetOf, true_or, if_true]
    omega
  rw [if_neg h1, if_neg h2]

theorem readAndParse_direct (env : Env) (p : LogParser) (websiteID targetKey : String)
    (src : LogSource) (target : TargetRef) (m : TargetMeta) (state : TargetState) (ok : Bool)
    (reader : List Nat)
    (hopen : src.OpenRange target (startOffsetOf ok m state) (-1) = Except.ok (some reader)) :
    readAndParse env p websiteID targetKey src target m state ok
      = (parseAndPersist env p websiteID targetKey target m state ok
          (startOffsetOf ok m state) reader).after
            [Event.OpenRange (startOffsetOf ok m state) (-1)] := by
  unfold readAndParse openWithFallback
  simp only [hopen]

theorem scanTarget_truncated (env : Env) (p : LogParser) (websiteID : String)
    (src : LogSource) (target : TargetRef) (st : TargetState) (m : TargetMeta)
    (hst : p.targetStates websiteID (buildTargetStateKey target.SourceID target.Key) = some st)
    (hm : observeMeta src target = Except.ok m)
    (hpos : 0 < m.Size) (hlt : m.Size < st.LastSize) :
    scanTarget env p websiteID src target
      = (readAndParse env p websiteID (buildTargetStateKey target.SourceID target.Key) src
          target m (resetState (withCutoff env st true)) false).after (statTrace target) := by
  rw [scanTarget_stored env p websiteID src target st m hst hm]
  have hsize : (withCutoff env st true).LastSize = st.LastSize := by
    unfold withCutoff
    split <;> rfl
  have hreset : resetDetected true m (withCutoff env st true) = true := by
    unfold resetDetected
    rw [hsize]
    have : 0 < m.Size ∧ 0 < st.LastSize ∧ m.Size < st.LastSize := ⟨hpos, by omega, hlt⟩
    simp [this]
  unfold scanObserved
  simp only [hreset, if_true]
  rw [scanFrom_new]

/-- C5 (as stated) fails: a target emptied to size 0 is smaller than the
stored `lastSize` 100, yet the pass opens it at the stale offset 100, runs the
parser with no minimum-timestamp floor (the stored floor is 5) and stores the
stale offset again. -/
theorem C5_counterexample :
    (plainMeta 0).Size < staleState.LastSize
      ∧ (storeWith staleState).targetStates "w" (buildTargetStateKey "s" "k") = some staleState
      ∧ observeMeta (rangeSource []) (targetWith (plainMeta 0)) = Except.ok (plainMeta 0)
      ∧ (scanTarget exampleEnv (storeWith staleState) "w" (rangeSource [])
          (targetWith (plainMeta 0))).trace
        = [Event.OpenRange 100 (-1), Event.parseLogLines [] ⟨0⟩,
            Event.setTargetState "w" "s:k"
              { TargetState.zero with
                LastOffset := 100, LastSize := 0, LastModTime := 1700000000,
                LastTimestamp := 1700000000, RecentCutoffTs := 5, BackfillDone := true }]
      ∧ Event.OpenRange 0 (-1) ∉ (scanTarget exampleEnv (storeWith staleState) "w"
          (rangeSource []) (targetWith (plainMeta 0))).trace := by
  refine ⟨by decide, by decide, rfl, by decide, by decide⟩

theorem resetState_withCutoff (env : Env) (st : TargetState) :
    resetState (withCutoff env st true) = freshState (floorOf env st) := by
  unfold resetState withCutoff freshState floorOf
  by_cases h : st.RecentCutoffTs = 0
  · simp [h]
  · simp [h]

/-- C5 (amended): for every stored state and observed metadata whose size is
positive and smaller than the stored `lastSize`, the pass treats the target as
new, keeping only the backfill floor `recentCutoffTs` (the stored one, or the
one of this pass when the stored one is 0). After the optional `Stat` its
first call opens the target at offset 0 and no open is at any other offset;
every parser call gets that floor as minimum timestamp; every state it writes
is computed from a state that holds nothing but that floor, with the read
counted from offset 0; and when the open at offset 0 succeeds (and, for a
compressed target, the gzip header read) the pass does run the parser with
that floor and stores that state without error. -/
theorem C5_positive_truncation_resets (env : Env) (p : LogParser) (websiteID : String)
    (src : LogSource) (target : TargetRef) (st : TargetState) (m : TargetMeta)
    (hst : p.targetStates websiteID (buildTargetStateKey target.SourceID target.Key) = some st)
    (hm : observeMeta src target = Except.ok m)
    (hpos : 0 < m.Size) (hlt : m.Size < st.LastSize) :
    (∃ rest, (scanTarget env p websiteID src target).trace
        = statTrace target ++ Event.OpenRange 0 (-1) :: rest)
      ∧ (∀ a b, Event.OpenRange a b ∈ (scanTarget env p websiteID src target).trace → a = 0)
      ∧ (∀ rd window, Event.parseLogLines rd window
          ∈ (scanTarget env p websiteID src target).trace →
          window.minTs = floorOf env st)
      ∧ (∀ w k written, Event.setTargetState w k written
          ∈ (scanTarget env p websiteID src target).trace →
          ∃ rd, Event.parseLogLines rd ⟨floorOf env st⟩
              ∈ (scanTarget env p websiteID src target).trace
            ∧ written = persisted m (freshState (floorOf env st)) 0
                (env.parseLogLines rd websiteID target.SourceID ⟨floorOf env st⟩))
      ∧ (∀ reader, src.OpenRange target 0 (-1) = Except.ok (some reader) →
          m.Compressed = false →
          (scanTarget env p websiteID src target).err = none
            ∧ (scanTarget env p websiteID src target).trace
              = statTrace target ++ [Event.OpenRange 0 (-1),
                  Event.parseLogLines reader ⟨floorOf env st⟩,
                  Event.setTargetState websiteID
                    (buildTargetStateKey target.SourceID target.Key)
                    (persisted m (freshState (floorOf env st)) 0
                      (env.parseLogLines reader websiteID target.SourceID ⟨floorOf env st⟩))]
            ∧ (scanTarget env p websiteID src target).p
              = setTargetState p websiteID (buildTargetStateKey target.SourceID target.Key)
                  (persisted m (freshState (floorOf env st)) 0
                    (env.parseLogLines reader websiteID target.SourceID ⟨floorOf env st⟩)))
      ∧ (∀ reader gz, src.OpenRange target 0 (-1) = Except.ok (some reader) →
          m.Compressed = true → env.gzipNewReader reader = Except.ok gz →
          (scanTarget env p websiteID src target).err = none
            ∧ (scanTarget env p websiteID src target).trace
              = statTrace target ++ [Event.OpenRange 0 (-1), Event.gzipNewReader,
                  Event.parseLogLines gz ⟨floorOf env st⟩,
                  Event.setTargetState websiteID
                    (buildTargetStateKey target.SourceID target.Key)
                    (persisted m (freshState (floorOf env st)) 0
                      (env.parseLogLines gz websiteID target.SourceID ⟨floorOf env st⟩))]
            ∧ (scanTarget env p websiteID src target).p
              = setTargetState p websiteID (buildTargetStateKey target.SourceID target.Key)
                  (persisted m (freshState (floorOf env st)) 0
                    (env.parseLogLines gz websiteID target.SourceID ⟨floorOf env st⟩))) := by
  rw [scanTarget_truncated env p websiteID src target st m hst hm hpos hlt,
    resetState_withCutoff]
  have hs := readAndParse_spec env p websiteID (buildTargetStateKey target.SourceID target.Key)
    src target m (freshState (floorOf env st)) false
  have hstart : startOffsetOf false m (freshState (floorOf env st)) = 0 := by
    simp [startOffsetOf]
  have hwin : windowOf false (freshState (floorOf env st)) = ⟨floorOf env st⟩ := by
    simp [windowOf, freshState]
  rw [hstart, hwin] at hs
  obtain ⟨⟨rest, hrest⟩, _, hopen, hparse, hwrite⟩ := hs
  refine ⟨⟨rest, ?_⟩, ?_, ?_, ?_, ?_, ?_⟩
  · simp only [ScanResult.after, hrest]
  · intro a b hev
    rw [mem_after_statTrace _ _ _ (by simp)] at hev
    rcases (hopen a b hev).1 with h | h <;> exact h
  · intro rd window hev
    rw [mem_after_statTrace _ _ _ (by simp)] at hev
    rw [hparse rd window hev]
  · intro w k written hev
    rw [mem_after_statTrace _ _ _ (by simp)] at hev
    obtain ⟨_, _, rd, hrd, hwr⟩ := hwrite w k written hev
    refine ⟨rd, ?_, hwr⟩
    rw [mem_after_statTrace _ _ _ (by simp)]
    exact hrd
  · intro reader hopenok hplain
    rw [readAndParse_direct env p websiteID _ src target m (freshState (floorOf env st)) false
      reader (by rw [hstart]; exact hopenok)]
    rw [hstart]
    simp [parseAndPersist, hplain, ScanResult.after, hwin]
  · intro reader gz hopenok hcomp hgz
    rw [readAndParse_direct env p websiteID _ src target m (freshState (floorOf env st)) false
      reader (by rw [hstart]; exact hopenok)]
    rw [hstart]
    simp [parseAndPersist, hcomp, hgz, ScanResult.after, hwin]

/-- Witness of C5 (amended): the 100-byte target of the stored state now has
3 bytes; the pass reads them from offset 0 with the stored floor 5. -/
theorem C5_positive_truncation_resets_witness :
    (storeWith staleState).targetStates "w" (buildTargetStateKey "s" "k") = some staleState
      ∧ observeMeta (rangeSource [1, 2, 3]) (targetWith (plainMeta 3)) = Except.ok (plainMeta 3)
      ∧ 0 < (plainMeta 3).Size
      ∧ (plainMeta 3).Size < staleState.LastSize
      ∧ (scanTarget exampleEnv (storeWith staleState) "w" (rangeSource [1, 2, 3])
          (targetWith (plainMeta 3))).trace
        = [Event.OpenRange 0 (-1), Event.parseLogLines [1, 2, 3] ⟨5⟩,
            Event.setTargetState "w" "s:k"
              { TargetState.zero with
                LastOffset := 3, LastSize := 3, LastModTime := 1700000000,
                LastTimestamp := 1700000000, RecentCutoffTs := 5, BackfillDone := true }]
      ∧ ∀ a b, Event.OpenRange a b ∈ (scanTarget exampleEnv (storeWith staleState) "w"
          (rangeSource [1, 2, 3]) (targetWith (plainMeta 3))).trace → a = 0 :=
  ⟨by decide, rfl, by decide, by decide, by decide,
    (C5_positive_truncation_resets exampleEnv (storeWith staleState) "w" (rangeSource [1, 2, 3])
      (targetWith (plainMeta 3)) staleState (plainMeta 3) (by decide) rfl (by decide)
      (by decide)).2.1⟩

theorem resetDetected_withCutoff (env : Env) (ok ok2 : Bool) (m : TargetMeta)
    (st : TargetState) :
    resetDetected ok m (withCutoff env st ok2) = resetDetected ok m st := by
  unfold withCutoff
  split <;> rfl

theorem unchanged_withCutoff (env : Env) (ok : Bool) (m : TargetMeta) (st : TargetState) :
    unchanged m (withCutoff env st ok) = unchanged m st := by
  unfold withCutoff
  split <;> rfl

theorem unchanged_iff (m : TargetMeta) (st : TargetState) :
    unchanged m st = true ↔
      (m.Size = st.LastSize
        ∧ ((m.ETag ≠ "" ∧ m.ETag = st.LastETag)
          ∨ (m.ETag = "" ∧ m.ModTime.Unix = st.LastModTime))) := by
  unfold unchanged
  simp only [Bool.and_eq_true, Bool.or_eq_true, decide_eq_true_eq]
  constructor
  · rintro ⟨h1, h2 | h2⟩
    · exact ⟨h1, Or.inl h2⟩
    · exact ⟨h1, Or.inr ⟨h2.1, h2.2.2⟩⟩
  · rintro ⟨h1, h2 | h2⟩
    · exact ⟨h1, Or.inl h2⟩
    · exact ⟨h1, Or.inr ⟨h2.1, h1, h2.2⟩⟩

theorem scanTarget_observed (env : Env) (p : LogParser) (websiteID : String) (src : LogSource)
    (target : TargetRef) (m : TargetMeta) (hm : observeMeta src target = Except.ok m) :
    scanTarget env p websiteID src target
      = (scanObserved env p websiteID (buildTargetStateKey target.SourceID target.Key) src
          target (getTargetState p websiteID
            (buildTargetStateKey target.SourceID target.Key)).1
          (getTargetState p websiteID
            (buildTargetStateKey target.SourceID target.Key)).2 m).after (statTrace target) := by
  unfold scanTarget
  simp only [hm]

theorem scanFrom_compressed_opens (env : Env) (p : LogParser) (websiteID targetKey : String)
    (src : LogSource) (target : TargetRef) (m : TargetMeta) (state : TargetState) (ok : Bool)
    (hcomp : m.Compressed = true) :
    ∀ a b, Event.OpenRange a b ∈ (scanFrom env p websiteID targetKey src target m state
      ok).trace → a = 0 ∧ b = -1 := by
  intro a b hev
  unfold scanFrom at hev
  split at hev
  · simp at hev
  · split at hev
    · rename_i h2
      rw [hcomp] at h2
      simp at h2
    · have hs := readAndParse_spec env p websiteID targetKey src target m state ok
      have hstart : startOffsetOf ok m state = 0 := by simp [startOffsetOf, hcomp]
      have := hs.2.2.1 a b hev
      rw [hstart] at this
      exact ⟨by rcases this.1 with h | h <;> exact h, this.2⟩

/-- C6 (as stated) fails on two inputs with a stored state and no reset
condition. First: size and (empty) entity tag equal the stored ones but the
modification time changed; the claim says skip, the pass rescans. Second: the
size and the modification time equal the stored ones but the backend now
reports an entity tag where none was stored; the claim says skip, the pass
rescans. -/
theorem C6_counterexample :
    (resetDetected true ⟨3, ⟨200, 0⟩, "", true⟩
          { staleState with LastOffset := 3, LastSize := 3, LastModTime := 100 } = false
        ∧ (3 : Int) = ({ staleState with LastOffset := 3, LastSize := 3, LastModTime := 100 }
            : TargetState).LastSize
        ∧ "" = ({ staleState with LastOffset := 3, LastSize := 3, LastModTime := 100 }
            : TargetState).LastETag
        ∧ (scanTarget exampleEnv
            (storeWith { staleState with LastOffset := 3, LastSize := 3, LastModTime := 100 })
            "w" (rangeSource [1, 2, 3]) (targetWith ⟨3, ⟨200, 0⟩, "", true⟩)).trace
          = [Event.OpenRange 0 (-1), Event.gzipNewReader, Event.parseLogLines [1, 2, 3] ⟨0⟩,
              Event.setTargetState "w" "s:k"
                { TargetState.zero with
                  LastOffset := 3, LastSize := 3, LastModTime := 200,
                  LastTimestamp := 200, RecentCutoffTs := 5, BackfillDone := true }])
      ∧ (resetDetected true ⟨3, ⟨200, 0⟩, "abc", true⟩
          { staleState with LastOffset := 3, LastSize := 3, LastModTime := 200 } = false
        ∧ (3 : Int) = ({ staleState with LastOffset := 3, LastSize := 3, LastModTime := 200 }
            : TargetState).LastSize
        ∧ (200 : Int) = ({ staleState with LastOffset := 3, LastSize := 3, LastModTime := 200 }
            : TargetState).LastModTime
        ∧ (scanTarget exampleEnv
            (storeWith { staleState with LastOffset := 3, LastSize := 3, LastModTime := 200 })
            "w" (rangeSource [1, 2, 3]) (targetWith ⟨3, ⟨200, 0⟩, "abc", true⟩)).trace
          = [Event.OpenRange 0 (-1), Event.gzipNewReader, Event.parseLogLines [1, 2, 3] ⟨0⟩,
              Event.setTargetState "w" "s:k"
                { TargetState.zero with
                  LastOffset := 3, LastSize := 3, LastETag := "abc", LastModTime := 200,
                  LastTimestamp := 200, RecentCutoffTs := 5, BackfillDone := true }]) := by
  refine ⟨⟨by decide, by decide, by decide, by decide⟩,
    ⟨by decide, by decide, by decide, by decide⟩⟩

/-- C6 (amended): for every compressed target, with observed metadata `m`:
when a state `st` is stored and no reset condition holds, the pass skips (no
call beyond the optional `Stat`, no error, the store untouched) exactly when
the size equals `lastSize` and either the entity tag is non-empty and equals
`lastETag`, or the entity tag is empty and the modification time (in seconds)
equals `lastModTime`; in every other case its first call after the optional
`Stat` opens the target from offset 0 to the end, and when that open and the
gzip header read succeed the whole decompressed stream goes to the parser and
the state computed from its outputs is stored. In all cases, no open of a
compressed target is at a non-zero offset. -/
theorem C6_compressed_skip_or_full_rescan (env : Env) (p : LogParser) (websiteID : String)
    (src : LogSource) (target : TargetRef) (m : TargetMeta)
    (hm : observeMeta src target = Except.ok m) (hcomp : m.Compressed = true) :
    (∀ st, p.targetStates websiteID (buildTargetStateKey target.SourceID target.Key) = some st →
        resetDetected true m st = false →
        ((m.Size = st.LastSize
            ∧ ((m.ETag ≠ "" ∧ m.ETag = st.LastETag)
              ∨ (m.ETag = "" ∧ m.ModTime.Unix = st.LastModTime))) →
          (scanTarget env p websiteID src target).err = none
            ∧ (scanTarget env p websiteID src target).p = p
            ∧ (scanTarget env p websiteID src target).trace = statTrace target)
        ∧ (¬ (m.Size = st.LastSize
            ∧ ((m.ETag ≠ "" ∧ m.ETag = st.LastETag)
              ∨ (m.ETag = "" ∧ m.ModTime.Unix = st.LastModTime))) →
          (∃ rest, (scanTarget env p websiteID src target).trace
              = statTrace target ++ Event.OpenRange 0 (-1) :: rest)
            ∧ ∀ reader gz, src.OpenRange target 0 (-1) = Except.ok (some reader) →
                env.gzipNewReader reader = Except.ok gz →
                (scanTarget env p websiteID src target).err = none
                  ∧ (scanTarget env p websiteID src target).trace
                    = statTrace target ++ [Event.OpenRange 0 (-1), Event.gzipNewReader,
                        Event.parseLogLines gz ⟨0⟩,
                        Event.setTargetState websiteID
                          (buildTargetStateKey target.SourceID target.Key)
                          (persisted m (withCutoff env st true) 0
                            (env.parseLogLines gz websiteID target.SourceID ⟨0⟩))]))
      ∧ (∀ a b, Event.OpenRange a b ∈ (scanTarget env p websiteID src target).trace →
          a = 0 ∧ b = -1) := by
  constructor
  · intro st hst hnoreset
    rw [scanTarget_stored env p websiteID src target st m hst hm]
    have hnr : ¬ resetDetected true m (withCutoff env st true) = true := by
      rw [resetDetected_withCutoff, hnoreset]
      simp
    unfold scanObserved
    simp only [if_neg hnr]
    unfold scanFrom
    constructor
    · intro hskip
      have hu : unchanged m (withCutoff env st true) = true := by
        rw [unchanged_withCutoff]
        exact (unchanged_iff m st).mpr hskip
      simp [hcomp, hu, ScanResult.after]
    · intro hnskip
      have hu : ¬ unchanged m (withCutoff env st true) = true := by
        rw [unchanged_withCutoff]
        exact fun h => hnskip ((unchanged_iff m st).mp h)
      have h1 : ¬ (m.Compressed = true ∧ true = true
          ∧ unchanged m (withCutoff env st true) = true) := fun h => hu h.2.2
      have h2 : ¬ (m.Compressed = false ∧ 0 < m.Size
          ∧ m.Size ≤ startOffsetOf true m (withCutoff env st true)) := by
        rw [hcomp]
        simp
      rw [if_neg h1, if_neg h2]
      have hstart : startOffsetOf true m (withCutoff env st true) = 0 := by
        simp [startOffsetOf, hcomp]
      constructor
      · obtain ⟨rest, hrest⟩ := (readAndParse_spec env p websiteID
          (buildTargetStateKey target.SourceID target.Key) src target m
          (withCutoff env st true) true).1
        rw [hstart] at hrest
        exact ⟨rest, by simp only [ScanResult.after, hrest]⟩
      · intro reader gz hopen hgz
        rw [readAndParse_direct env p websiteID _ src target m (withCutoff env st true) true
          reader (by rw [hstart]; exact hopen)]
        rw [hstart]
        simp [parseAndPersist, hcomp, hgz, ScanResult.after, windowOf]
  · intro a b hev
    rw [scanTarget_observed env p websiteID src target m hm,
      mem_after_statTrace _ _ _ (by simp)] at hev
    unfold scanObserved at hev
    simp only at hev
    split at hev
    · exact scanFrom_compressed_opens _ _ _ _ _ _ _ _ _ hcomp a b hev
    · exact scanFrom_compressed_opens _ _ _ _ _ _ _ _ _ hcomp a b hev

/-- Witness of C6 (amended): an unchanged compressed object is skipped. -/
theorem C6_compressed_skip_or_full_rescan_witness :
    observeMeta (rangeSource [1, 2, 3]) (targetWith gzMeta) = Except.ok gzMeta
      ∧ gzMeta.Compressed = true
      ∧ (scanTarget exampleEnv (storeWith gzState) "w" (rangeSource [1, 2, 3])
          (targetWith gzMeta)).err = none
      ∧ (scanTarget exampleEnv (storeWith gzState) "w" (rangeSource [1, 2, 3])
          (targetWith gzMeta)).p = storeWith gzState
      ∧ (scanTarget exampleEnv (storeWith gzState) "w" (rangeSource [1, 2, 3])
          (targetWith gzMeta)).trace = statTrace (targetWith gzMeta) :=
  ⟨rfl, rfl,
    ((C6_compressed_skip_or_full_rescan exampleEnv (storeWith gzState) "w"
      (rangeSource [1, 2, 3]) (targetWith gzMeta) gzMeta rfl rfl).1 gzState
        (by decide) (by decide)).1 ⟨by decide, Or.inl ⟨by decide, by decide⟩⟩⟩

theorem addInt64_of_inRange (a b : Int) (hlo : -9223372036854775808 ≤ a + b)
    (hhi : a + b < 9223372036854775808) : addInt64 a b = a + b := by
  unfold addInt64
  omega

theorem persisted_fields (m : TargetMeta) (state : TargetState) (startOffset : Int)
    (out : ParseOutput) :
    (persisted m state startOffset out).LastOffset
        = (if m.Compressed = true then m.Size else addInt64 startOffset out.bytesRead)
      ∧ (persisted m state startOffset out).LastSize = m.Size
      ∧ (persisted m state startOffset out).LastETag = m.ETag
      ∧ (persisted m state startOffset out).LastModTime = m.ModTime.Unix := by
  unfold persisted
  by_cases hc : m.Compressed = true
  · simp [hc]
  · simp [hc]

theorem withCutoff_LastOffset (env : Env) (ok : Bool) (st : TargetState) :
    (withCutoff env st ok).LastOffset = st.LastOffset := by
  unfold withCutoff
  split <;> rfl

theorem scanTarget_resume (env : Env) (p : LogParser) (websiteID : String)
    (src : LogSource) (target : TargetRef) (st : TargetState) (m : TargetMeta)
    (hst : p.targetStates websiteID (buildTargetStateKey target.SourceID target.Key) = some st)
    (hm : observeMeta src target = Except.ok m)
    (hplain : m.Compressed = false) (hnoreset : resetDetected true m st = false)
    (hnew : ¬ (0 < m.Size ∧ m.Size ≤ st.LastOffset)) :
    scanTarget env p websiteID src target
        = (readAndParse env p websiteID (buildTargetStateKey target.SourceID target.Key) src
            target m (withCutoff env st true) true).after (statTrace target)
      ∧ startOffsetOf true m (withCutoff env st true) = st.LastOffset
      ∧ windowOf true (withCutoff env st true) = ⟨0⟩ := by
  have hstart : startOffsetOf true m (withCutoff env st true) = st.LastOffset := by
    simp [startOffsetOf, hplain, withCutoff_LastOffset]
  refine ⟨?_, hstart, by simp [windowOf]⟩
  rw [scanTarget_stored env p websiteID src target st m hst hm]
  have hnr : ¬ resetDetected true m (withCutoff env st true) = true := by
    rw [resetDetected_withCutoff, hnoreset]
    simp
  unfold scanObserved
  simp only [if_neg hnr]
  unfold scanFrom
  have h1 : ¬ (m.Compressed = true ∧ true = true
      ∧ unchanged m (withCutoff env st true) = true) := by
    rw [hplain]
    simp
  have h2 : ¬ (m.Compressed = false ∧ 0 < m.Size
      ∧ m.Size ≤ startOffsetOf true m (withCutoff env st true)) := by
    rw [hstart]
    exact fun h => hnew h.2
  rw [if_neg h1, if_neg h2]

/-- C7 (as stated) fails where the sum leaves the `int64` range: the stored
offset is 9223372036854775806, the observed size 9223372036854775807 (no
reset, offset below size), and the parser reports 5 bytes consumed. The pass
stores the wrapped sum -9223372036854775805, not the previous offset plus 5. -/
theorem C7_counterexample :
    (storeWith hugeState).targetStates "w" (buildTargetStateKey "s" "k") = some hugeState
      ∧ observeMeta (fixedSource [1, 2, 3, 4, 5]) (targetWith (plainMeta 9223372036854775807))
          = Except.ok (plainMeta 9223372036854775807)
      ∧ (plainMeta 9223372036854775807).Compressed = false
      ∧ resetDetected true (plainMeta 9223372036854775807) hugeState = false
      ∧ hugeState.LastOffset < (plainMeta 9223372036854775807).Size
      ∧ (exampleEnv.parseLogLines [1, 2, 3, 4, 5] "w" "s" ⟨0⟩).bytesRead = 5
      ∧ (scanTarget exampleEnv (storeWith hugeState) "w" (fixedSource [1, 2, 3, 4, 5])
          (targetWith (plainMeta 9223372036854775807))).trace
        = [Event.OpenRange 9223372036854775806 (-1), Event.parseLogLines [1, 2, 3, 4, 5] ⟨0⟩,
            Event.setTargetState "w" "s:k"
              { TargetState.zero with
                LastOffset := -9223372036854775805, LastSize := 9223372036854775807,
                LastModTime := 1700000000, LastTimestamp := 1700000000,
                RecentCutoffTs := 5, BackfillDone := true }]
      ∧ (-9223372036854775805 : Int) ≠ hugeState.LastOffset + 5 := by
  refine ⟨by decide, rfl, rfl, by decide, by decide, by decide, by decide, by decide⟩

/-- C7 (amended): for every uncompressed target with a stored state `st` on
which no reset condition holds and whose `lastOffset` is smaller than the
observed size: the first call of the pass after the optional `Stat` requests
the bytes from exactly `lastOffset` to the end; every parser call has no
minimum-timestamp filter; every state the pass stores has `lastOffset` equal
to the `int64` sum of the previous `lastOffset` and the bytes the parser
reported consumed, which is their exact sum whenever that sum lies in the
`int64` range, and `lastSize`, `lastETag`, `lastModTime` equal to the observed
metadata; and when the open succeeds the pass does run the parser on the
stream and stores that state without error. -/
theorem C7_resume_from_lastOffset (env : Env) (p : LogParser) (websiteID : String)
    (src : LogSource) (target : TargetRef) (st : TargetState) (m : TargetMeta)
    (hst : p.targetStates websiteID (buildTargetStateKey target.SourceID target.Key) = some st)
    (hm : observeMeta src target = Except.ok m)
    (hplain : m.Compressed = false) (hnoreset : resetDetected true m st = false)
    (hlt : st.LastOffset < m.Size) :
    (∃ rest, (scanTarget env p websiteID src target).trace
        = statTrace target ++ Event.OpenRange st.LastOffset (-1) :: rest)
      ∧ (∀ rd window, Event.parseLogLines rd window
          ∈ (scanTarget env p websiteID src target).trace → window.minTs = 0)
      ∧ (∀ w k written, Event.setTargetState w k written
          ∈ (scanTarget env p websiteID src target).trace →
          ∃ rd, Event.parseLogLines rd ⟨0⟩ ∈ (scanTarget env p websiteID src target).trace
            ∧ written.LastOffset = addInt64 st.LastOffset
                (env.parseLogLines rd websiteID target.SourceID ⟨0⟩).bytesRead
            ∧ (-9223372036854775808 ≤ st.LastOffset
                  + (env.parseLogLines rd websiteID target.SourceID ⟨0⟩).bytesRead →
                st.LastOffset + (env.parseLogLines rd websiteID target.SourceID ⟨0⟩).bytesRead
                  < 9223372036854775808 →
                written.LastOffset = st.LastOffset
                  + (env.parseLogLines rd websiteID target.SourceID ⟨0⟩).bytesRead)
            ∧ written.LastSize = m.Size
            ∧ written.LastETag = m.ETag
            ∧ written.LastModTime = m.ModTime.Unix)
      ∧ (∀ reader, src.OpenRange target st.LastOffset (-1) = Except.ok (some reader) →
          (scanTarget env p websiteID src target).err = none
            ∧ (scanTarget env p websiteID src target).trace
              = statTrace target ++ [Event.OpenRange st.LastOffset (-1),
                  Event.parseLogLines reader ⟨0⟩,
                  Event.setTargetState websiteID
                    (buildTargetStateKey target.SourceID target.Key)
                    (persisted m (withCutoff env st true) st.LastOffset
                      (env.parseLogLines reader websiteID target.SourceID ⟨0⟩))]
            ∧ (scanTarget env p websiteID src target).p
              = setTargetState p websiteID (buildTargetStateKey target.SourceID target.Key)
                  (persisted m (withCutoff env st true) st.LastOffset
                    (env.parseLogLines reader websiteID target.SourceID ⟨0⟩))) := by
  obtain ⟨heq, hstart, hwin⟩ := scanTarget_resume env p websiteID src target st m hst hm
    hplain hnoreset (by omega)
  rw [heq]
  have hs := readAndParse_spec env p websiteID (buildTargetStateKey target.SourceID target.Key)
    src target m (withCutoff env st true) true
  rw [hstart, hwin] at hs
  obtain ⟨⟨rest, hrest⟩, _, _, hparse, hwrite⟩ := hs
  refine ⟨⟨rest, ?_⟩, ?_, ?_, ?_⟩
  · simp only [ScanResult.after, hrest]
  · intro rd window hev
    rw [mem_after_statTrace _ _ _ (by simp)] at hev
    rw [hparse rd window hev]
  · intro w k written hev
    rw [mem_after_statTrace _ _ _ (by simp)] at hev
    obtain ⟨_, _, rd, hrd, hwr⟩ := hwrite w k written hev
    have hf := persisted_fields m (withCutoff env st true) st.LastOffset
      (env.parseLogLines rd websiteID target.SourceID ⟨0⟩)
    rw [← hwr] at hf
    have hoff : written.LastOffset = addInt64 st.LastOffset
        (env.parseLogLines rd websiteID target.SourceID ⟨0⟩).bytesRead := by
      rw [hf.1, hplain]
      simp
    refine ⟨rd, ?_, hoff, ?_, hf.2.1, hf.2.2.1, hf.2.2.2⟩
    · rw [mem_after_statTrace _ _ _ (by simp)]
      exact hrd
    · intro hlo hhi
      rw [hoff]
      exact addInt64_of_inRange _ _ hlo hhi
  · intro reader hopen
    rw [readAndParse_direct env p websiteID _ src target m (withCutoff env st true) true
      reader (by rw [hstart]; exact hopen)]
    rw [hstart]
    simp [parseAndPersist, hplain, ScanResult.after, windowOf]

/-- Witness of C7: 2 of 3 bytes were consumed; the pass reads from offset 2. -/
theorem C7_resume_from_lastOffset_witness :
    (storeWith { staleState with LastOffset := 2, LastSize := 2 }).targetStates "w"
        (buildTargetStateKey "s" "k") = some { staleState with LastOffset := 2, LastSize := 2 }
      ∧ observeMeta (rangeSource [1, 2, 3]) (targetWith (plainMeta 3)) = Except.ok (plainMeta 3)
      ∧ (plainMeta 3).Compressed = false
      ∧ resetDetected true (plainMeta 3) { staleState with LastOffset := 2, LastSize := 2 } = false
      ∧ ({ staleState with LastOffset := 2, LastSize := 2 } : TargetState).LastOffset
          < (plainMeta 3).Size
      ∧ (scanTarget exampleEnv (storeWith { staleState with LastOffset := 2, LastSize := 2 })
          "w" (rangeSource [1, 2, 3]) (targetWith (plainMeta 3))).trace
        = [Event.OpenRange 2 (-1), Event.parseLogLines [3] ⟨0⟩,
            Event.setTargetState "w" "s:k"
              { TargetState.zero with
                LastOffset := 3, LastSize := 3, LastModTime := 1700000000,
                LastTimestamp := 1700000000, RecentCutoffTs := 5, BackfillDone := true }]
      ∧ ∀ rd window, Event.parseLogLines rd window
          ∈ (scanTarget exampleEnv (storeWith { staleState with LastOffset := 2, LastSize := 2 })
              "w" (rangeSource [1, 2, 3]) (targetWith (plainMeta 3))).trace →
          window.minTs = 0 :=
  ⟨by decide, rfl, rfl, by decide, by decide, by decide,
    (C7_resume_from_lastOffset exampleEnv
      (storeWith { staleState with LastOffset := 2, LastSize := 2 }) "w" (rangeSource [1, 2, 3])
      (targetWith (plainMeta 3)) { staleState with LastOffset := 2, LastSize := 2 }
      (plainMeta 3) (by decide) rfl rfl (by decide) (by decide)).2.1⟩

theorem parseAndPersist_parsed (env : Env) (p : LogParser) (websiteID targetKey : String)
    (target : TargetRef) (m : TargetMeta) (state : TargetState) (ok : Bool)
    (startOffset : Int) (reader : List Nat)
    (h : ∃ rd window, Event.parseLogLines rd window
      ∈ (parseAndPersist env p websiteID targetKey target m state ok startOffset reader).trace) :
    ∃ written, (parseAndPersist env p websiteID targetKey target m state ok startOffset
        reader).p = setTargetState p websiteID targetKey written
      ∧ written.LastSize = m.Size ∧ written.LastETag = m.ETag
      ∧ written.LastModTime = m.ModTime.Unix
      ∧ (m.Compressed = true → written.LastOffset = m.Size) := by
  obtain ⟨rd, window, hev⟩ := h
  unfold parseAndPersist at hev ⊢
  by_cases hc : m.Compressed = true
  · simp only [hc, if_true] at hev ⊢
    cases hg : env.gzipNewReader reader with
    | error err =>
      rw [hg] at hev
      simp at hev
    | ok gz =>
      have hf := persisted_fields m state startOffset
        (env.parseLogLines gz websiteID target.SourceID (windowOf ok state))
      refine ⟨_, rfl, hf.2.1, hf.2.2.1, hf.2.2.2, ?_⟩
      intro _
      rw [hf.1, if_pos hc]
  · simp only [hc, if_false]
    have hf := persisted_fields m state startOffset
      (env.parseLogLines reader websiteID target.SourceID (windowOf ok state))
    refine ⟨_, rfl, hf.2.1, hf.2.2.1, hf.2.2.2, ?_⟩
    intro h
    exact absurd h (by decide)

theorem readAndParse_parsed (env : Env) (p : LogParser) (websiteID targetKey : String)
    (src : LogSource) (target : TargetRef) (m : TargetMeta) (state : TargetState) (ok : Bool)
    (h : ∃ rd window, Event.parseLogLines rd window
      ∈ (readAndParse env p websiteID targetKey src target m state ok).trace) :
    ∃ written, (readAndParse env p websiteID targetKey src target m state ok).p
        = setTargetState p websiteID targetKey written
      ∧ written.LastSize = m.Size ∧ written.LastETag = m.ETag
      ∧ written.LastModTime = m.ModTime.Unix
      ∧ (m.Compressed = true → written.LastOffset = m.Size) := by
  have hopens := openWithFallback_events src target (startOffsetOf ok m state)
  obtain ⟨rd, window, hev⟩ := h
  unfold readAndParse at hev ⊢
  rcases hres : openWithFallback src target (startOffsetOf ok m state) with ⟨opens, res⟩
  rw [hres] at hev hopens
  have hnoparse : ∀ rd window, Event.parseLogLines rd window ∉ opens := by
    intro rd window hmem
    have := (hopens _ hmem).2
    simp [Event.isParse] at this
  rcases res with err | reader
  · exact absurd hev (hnoparse rd window)
  · cases reader with
    | none => exact absurd hev (hnoparse rd window)
    | some reader =>
      simp only [ScanResult.after] at hev ⊢
      rcases List.mem_append.mp hev with h1 | h1
      · exact absurd h1 (hnoparse rd window)
      · exact parseAndPersist_parsed _ _ _ _ _ _ _ _ _ _ ⟨rd, window, h1⟩

theorem scanFrom_parsed (env : Env) (p : LogParser) (websiteID targetKey : String)
    (src : LogSource) (target : TargetRef) (m : TargetMeta) (state : TargetState) (ok : Bool)
    (h : ∃ rd window, Event.parseLogLines rd window
      ∈ (scanFrom env p websiteID targetKey src target m state ok).trace) :
    ∃ written, (scanFrom env p websiteID targetKey src target m state ok).p
        = setTargetState p websiteID targetKey written
      ∧ written.LastSize = m.Size ∧ written.LastETag = m.ETag
      ∧ written.LastModTime = m.ModTime.Unix
      ∧ (m.Compressed = true → written.LastOffset = m.Size) := by
  obtain ⟨rd, window, hev⟩ := h
  unfold scanFrom at hev ⊢
  by_cases h1 : m.Compressed = true ∧ ok = true ∧ unchanged m state = true
  · rw [if_pos h1] at hev
    simp at hev
  · rw [if_neg h1] at hev ⊢
    by_cases h2 : m.Compressed = false ∧ 0 < m.Size ∧ m.Size ≤ startOffsetOf ok m state
    · rw [if_pos h2] at hev
      simp at hev
    · rw [if_neg h2] at hev ⊢
      exact readAndParse_parsed _ _ _ _ _ _ _ _ _ ⟨rd, window, hev⟩

theorem scanTarget_parsed (env : Env) (p : LogParser) (websiteID : String) (src : LogSource)
    (target : TargetRef) (m : TargetMeta) (hm : observeMeta src target = Except.ok m)
    (h : ∃ rd window, Event.parseLogLines rd window
      ∈ (scanTarget env p websiteID src target).trace) :
    ∃ written, (scanTarget env p websiteID src target).p
        = setTargetState p websiteID (buildTargetStateKey target.SourceID target.Key) written
      ∧ written.LastSize = m.Size ∧ written.LastETag = m.ETag
      ∧ written.LastModTime = m.ModTime.Unix
      ∧ (m.Compressed = true → written.LastOffset = m.Size) := by
  obtain ⟨rd, window, hev⟩ := h
  rw [scanTarget_observed env p websiteID src target m hm] at hev ⊢
  rw [mem_after_statTrace _ _ _ (by simp)] at hev
  simp only [ScanResult.after]
  unfold scanObserved at hev ⊢
  simp only at hev ⊢
  split
  · rename_i hr
    rw [if_pos hr] at hev
    exact scanFrom_parsed _ _ _ _ _ _ _ _ _ ⟨rd, window, hev⟩
  · rename_i hr
    rw [if_neg hr] at hev
    exact scanFrom_parsed _ _ _ _ _ _ _ _ _ ⟨rd, window, hev⟩

/-- A pass on a state that already records the observed metadata and an
offset equal to the size opens nothing and parses nothing. -/
theorem scanTarget_settled (env : Env) (p : LogParser) (websiteID : String) (src : LogSource)
    (target : TargetRef) (st : TargetState) (m : TargetMeta)
    (hst : p.targetStates websiteID (buildTargetStateKey target.SourceID target.Key) = some st)
    (hm : observeMeta src target = Except.ok m) (hpos : 0 < m.Size)
    (hsize : st.LastSize = m.Size) (hetag : st.LastETag = m.ETag)
    (hmod : st.LastModTime = m.ModTime.Unix) (hoff : st.LastOffset = m.Size) :
    (scanTarget env p websiteID src target).err = none
      ∧ ∀ ev, ev ∈ (scanTarget env p websiteID src target).trace →
          ev.isOpen = false ∧ ev.isParse = false := by
  rw [scanTarget_stored env p websiteID src target st m hst hm]
  have hnr : ¬ resetDetected true m (withCutoff env st true) = true := by
    rw [resetDetected_withCutoff]
    unfold resetDetected
    rw [hsize, hetag, hoff]
    simp
  have hstat : ∀ ev, ev ∈ statTrace target → ev.isOpen = false ∧ ev.isParse = false := by
    intro ev hev
    rw [statTrace_eq_Stat target ev hev]
    exact ⟨rfl, rfl⟩
  unfold scanObserved
  simp only [if_neg hnr]
  unfold scanFrom
  by_cases hc : m.Compressed = true
  · have hu : unchanged m (withCutoff env st true) = true := by
      rw [unchanged_withCutoff, unchanged_iff, hsize, hetag, hmod]
      refine ⟨rfl, ?_⟩
      by_cases he : m.ETag = ""
      · exact Or.inr ⟨he, rfl⟩
      · exact Or.inl ⟨he, rfl⟩
    rw [if_pos ⟨hc, rfl, hu⟩]
    refine ⟨rfl, ?_⟩
    intro ev hev
    simp only [ScanResult.after, List.append_nil] at hev
    exact hstat ev hev
  · have hplain : m.Compressed = false := by simpa using hc
    have h1 : ¬ (m.Compressed = true ∧ true = true
        ∧ unchanged m (withCutoff env st true) = true) := fun h => hc h.1
    have hstart : startOffsetOf true m (withCutoff env st true) = m.Size := by
      simp [startOffsetOf, hplain, withCutoff_LastOffset, hoff]
    have h2 : m.Compressed = false ∧ 0 < m.Size
        ∧ m.Size ≤ startOffsetOf true m (withCutoff env st true) := by
      rw [hstart]
      exact ⟨hplain, hpos, le_refl _⟩
    rw [if_neg h1, if_pos h2]
    refine ⟨rfl, ?_⟩
    intro ev hev
    simp only [ScanResult.after] at hev
    rcases List.mem_append.mp hev with h | h
    · exact hstat ev h
    · simp at h
      subst h
      exact ⟨rfl, rfl⟩

/-- C8: if a pass on a target with observed metadata `m` (size > 0) ran the
parser and the state it stored has `lastOffset` equal to the size (the parser
consumed the target to its end; for a compressed target the pass stores the
size itself), then a second pass on the same metadata, with any backend
content and any parser, returns no error, opens nothing and never calls the
parser, for compressed and uncompressed targets alike. -/
theorem C8_idempotent_rescan (env env2 : Env) (p : LogParser) (websiteID : String)
    (src src2 : LogSource) (target : TargetRef) (m : TargetMeta)
    (hm : observeMeta src target = Except.ok m)
    (hm2 : observeMeta src2 target = Except.ok m)
    (hpos : 0 < m.Size)
    (hparsed : ∃ rd window, Event.parseLogLines rd window
      ∈ (scanTarget env p websiteID src target).trace)
    (hend : ∃ written, (scanTarget env p websiteID src target).p.targetStates websiteID
        (buildTargetStateKey target.SourceID target.Key) = some written
      ∧ written.LastOffset = m.Size) :
    (scanTarget env2 (scanTarget env p websiteID src target).p websiteID src2 target).err = none
      ∧ ∀ ev, ev ∈ (scanTarget env2 (scanTarget env p websiteID src target).p websiteID src2
          target).trace → ev.isOpen = false ∧ ev.isParse = false := by
  obtain ⟨written, hp, hsize, hetag, hmod, _⟩ :=
    scanTarget_parsed env p websiteID src target m hm hparsed
  have hstored : (scanTarget env p websiteID src target).p.targetStates websiteID
      (buildTargetStateKey target.SourceID target.Key) = some written := by
    rw [hp]
    simp [setTargetState]
  obtain ⟨written2, hstored2, hoff⟩ := hend
  have hsame : written2 = written := Option.some.inj (hstored2.symm.trans hstored)
  rw [hsame] at hoff
  exact scanTarget_settled env2 _ websiteID src2 target written m hstored hm2 hpos hsize hetag
    hmod hoff

/-- Witness of C8: a first pass reads the 3 bytes of a new target to the end;
the second pass on the same metadata only refreshes the stored metadata. -/
theorem C8_idempotent_rescan_witness :
    observeMeta (rangeSource [1, 2, 3]) (targetWith (plainMeta 3)) = Except.ok (plainMeta 3)
      ∧ 0 < (plainMeta 3).Size
      ∧ (scanTarget exampleEnv ⟨fun _ _ => none⟩ "w" (rangeSource [1, 2, 3])
          (targetWith (plainMeta 3))).trace
        = [Event.OpenRange 0 (-1), Event.parseLogLines [1, 2, 3] ⟨1000⟩,
            Event.setTargetState "w" "s:k"
              { TargetState.zero with
                LastOffset := 3, LastSize := 3, LastModTime := 1700000000,
                LastTimestamp := 1700000000, RecentCutoffTs := 1000, BackfillDone := true }]
      ∧ (scanTarget exampleEnv
          (scanTarget exampleEnv ⟨fun _ _ => none⟩ "w" (rangeSource [1, 2, 3])
            (targetWith (plainMeta 3))).p "w" (rangeSource [1, 2, 3])
          (targetWith (plainMeta 3))).err = none
      ∧ ∀ ev, ev ∈ (scanTarget exampleEnv
          (scanTarget exampleEnv ⟨fun _ _ => none⟩ "w" (rangeSource [1, 2, 3])
            (targetWith (plainMeta 3))).p "w" (rangeSource [1, 2, 3])
          (targetWith (plainMeta 3))).trace → ev.isOpen = false ∧ ev.isParse = false :=
  ⟨rfl, by decide, by decide,
    C8_idempotent_rescan exampleEnv exampleEnv ⟨fun _ _ => none⟩ "w" (rangeSource [1, 2, 3])
      (rangeSource [1, 2, 3]) (targetWith (plainMeta 3)) (plainMeta 3) rfl rfl (by decide)
      ⟨[1, 2, 3], ⟨1000⟩, by decide⟩
      ⟨{ TargetState.zero with
          LastOffset := 3, LastSize := 3, LastModTime := 1700000000,
          LastTimestamp := 1700000000, RecentCutoffTs := 1000, BackfillDone := true },
        by decide, by decide⟩⟩

/-- C9: whenever `scanTarget` returns an error (a failed `Stat`, a failed open
or reopen, a failed skip in the range fallback, a failed gzip header read), it
has made no `setTargetState` call and the state store is exactly the one it
started from. -/
theorem C9_error_writes_no_state (env : Env) (p : LogParser) (websiteID : String)
    (src : LogSource) (target : TargetRef)
    (h : (scanTarget env p websiteID src target).err ≠ none) :
    (scanTarget env p websiteID src target).p = p
      ∧ ∀ ev, ev ∈ (scanTarget env p websiteID src target).trace → ev.isWrite = false := by
  unfold scanTarget at h ⊢
  simp only at h ⊢
  split
  · refine ⟨rfl, ?_⟩
    intro ev hev
    rw [statTrace_eq_Stat target ev hev]
    rfl
  · rename_i m hm
    rw [hm] at h
    simp only [ScanResult.after] at h ⊢
    have hs := scanObserved_err _ _ _ _ _ _ _ _ _ h
    refine ⟨hs.1, ?_⟩
    intro ev hev
    rcases List.mem_append.mp hev with h1 | h1
    · rw [statTrace_eq_Stat target ev h1]
      rfl
    · exact hs.2 ev h1

/-- Witness of C9: the push-only agent backend fails every open, so the pass
on a stored state returns an error. -/
theorem C9_error_writes_no_state_witness :
    (scanTarget exampleEnv (storeWith { TargetState.zero with LastOffset := 4, LastSize := 4 })
        "w" AgentSource (targetWith ⟨10, ⟨1700000000, 0⟩, "", false⟩)).err ≠ none
      ∧ (scanTarget exampleEnv (storeWith { TargetState.zero with LastOffset := 4, LastSize := 4 })
          "w" AgentSource (targetWith ⟨10, ⟨1700000000, 0⟩, "", false⟩)).p
          = storeWith { TargetState.zero with LastOffset := 4, LastSize := 4 }
      ∧ ∀ ev, ev ∈ (scanTarget exampleEnv
          (storeWith { TargetState.zero with LastOffset := 4, LastSize := 4 })
          "w" AgentSource (targetWith ⟨10, ⟨1700000000, 0⟩, "", false⟩)).trace →
            ev.isWrite = false :=
  ⟨by decide,
    C9_error_writes_no_state exampleEnv
      (storeWith { TargetState.zero with LastOffset := 4, LastSize := 4 }) "w" AgentSource
      (targetWith ⟨10, ⟨1700000000, 0⟩, "", false⟩) (by decide)⟩

theorem readAndParse_fallback (env : Env) (p : LogParser) (websiteID targetKey : String)
    (src : LogSource) (target : TargetRef) (m : TargetMeta) (state : TargetState) (ok : Bool)
    (hfail : src.OpenRange target (startOffsetOf ok m state) (-1)
      = Except.error Error.ErrRangeNotSupported) :
    (0 < startOffsetOf ok m state →
        (∀ content, src.OpenRange target 0 (-1) = Except.ok (some content) →
          startOffsetOf ok m state ≤ (content.length : Int) →
          readAndParse env p websiteID targetKey src target m state ok
            = (parseAndPersist env p websiteID targetKey target m state ok
                (startOffsetOf ok m state)
                (content.drop (startOffsetOf ok m state).toNat)).after
                  [Event.OpenRange (startOffsetOf ok m state) (-1), Event.OpenRange 0 (-1),
                    Event.skipReaderBytes (startOffsetOf ok m state)])
        ∧ (∀ err2, src.OpenRange target 0 (-1) = Except.error err2 →
          readAndParse env p websiteID targetKey src target m state ok
            = { err := some err2, p := p
                trace := [Event.OpenRange (startOffsetOf ok m state) (-1),
                  Event.OpenRange 0 (-1)] }))
      ∧ (startOffsetOf ok m state ≤ 0 →
        readAndParse env p websiteID targetKey src target m state ok
          = { err := some Error.ErrRangeNotSupported, p := p
              trace := [Event.OpenRange (startOffsetOf ok m state) (-1)] }) := by
  refine ⟨fun hpos => ⟨?_, ?_⟩, ?_⟩
  · intro content hreopen hlen
    unfold readAndParse openWithFallback
    simp only [hfail, hpos, and_self, if_true, hreopen, skipReaderBytes, hlen]
  · intro err2 hreopen
    unfold readAndParse openWithFallback
    simp only [hfail, hpos, and_self, if_true, hreopen]
  · intro hle
    have hnot : ¬ (True ∧ 0 < startOffsetOf ok m state) := by
      intro h
      omega
    unfold readAndParse openWithFallback
    simp only [hfail, if_neg hnot]

theorem scanFrom_fallback (env : Env) (p : LogParser) (websiteID targetKey : String)
    (src : LogSource) (target : TargetRef) (m : TargetMeta) (state : TargetState) (ok : Bool)
    (s0 : Int) (rest : List Event)
    (htrace : (scanFrom env p websiteID targetKey src target m state ok).trace
      = Event.OpenRange s0 (-1) :: rest)
    (hfail : src.OpenRange target s0 (-1) = Except.error Error.ErrRangeNotSupported) :
    (0 < s0 →
        (∀ content, src.OpenRange target 0 (-1) = Except.ok (some content) →
          s0 ≤ (content.length : Int) →
          (scanFrom env p websiteID targetKey src target m state ok).err = none
            ∧ ∃ written, rest = [Event.OpenRange 0 (-1), Event.skipReaderBytes s0,
                Event.parseLogLines (content.drop s0.toNat) ⟨0⟩,
                Event.setTargetState websiteID targetKey written])
        ∧ (∀ err2, src.OpenRange target 0 (-1) = Except.error err2 →
          (scanFrom env p websiteID targetKey src target m state ok).err = some err2
            ∧ rest = [Event.OpenRange 0 (-1)]))
      ∧ (s0 ≤ 0 →
        (scanFrom env p websiteID targetKey src target m state ok).err
            = some Error.ErrRangeNotSupported
          ∧ rest = []) := by
  unfold scanFrom at htrace ⊢
  by_cases h1 : m.Compressed = true ∧ ok = true ∧ unchanged m state = true
  · rw [if_pos h1] at htrace
    simp at htrace
  · rw [if_neg h1] at htrace ⊢
    by_cases h2 : m.Compressed = false ∧ 0 < m.Size ∧ m.Size ≤ startOffsetOf ok m state
    · rw [if_pos h2] at htrace
      simp at htrace
    · rw [if_neg h2] at htrace ⊢
      obtain ⟨rest2, hrest2⟩ := (readAndParse_spec env p websiteID targetKey src target m
        state ok).1
      have hs0 : startOffsetOf ok m state = s0 := by
        rw [hrest2] at htrace
        simp at htrace
        exact htrace.1
      rw [← hs0] at hfail
      have hfb := readAndParse_fallback env p websiteID targetKey src target m state ok hfail
      rw [hs0] at hfb
      refine ⟨fun hpos => ⟨?_, ?_⟩, ?_⟩
      · intro content hreopen hlen
        have heq := (hfb.1 hpos).1 content hreopen hlen
        have hok : ok = true ∧ m.Compressed = false := by
          unfold startOffsetOf at hs0
          by_cases hc : ok = false ∨ m.Compressed = true
          · rw [if_pos hc] at hs0
            omega
          · constructor
            · cases ok
              · exact absurd (Or.inl rfl) hc
              · rfl
            · cases hcm : m.Compressed
              · rfl
              · exact absurd (Or.inr hcm) hc
        rw [heq] at htrace ⊢
        simp only [parseAndPersist, hok.2, ScanResult.after, windowOf, hok.1] at htrace ⊢
        simp at htrace
        refine ⟨by simp, _, htrace.symm⟩
      · intro err2 hreopen
        have heq := (hfb.1 hpos).2 err2 hreopen
        rw [heq] at htrace ⊢
        simp at htrace
        exact ⟨rfl, htrace.symm⟩
      · intro hle
        have heq := hfb.2 hle
        rw [heq] at htrace ⊢
        simp at htrace
        exact ⟨rfl, htrace⟩

/-- C10 (as stated) fails on the push-only agent backend, whose `OpenRange`
always answers `ErrRangeNotSupported`. On a new target (start offset 0) the
pass makes no second open and returns that error; on a stored offset 2 it
reopens from 0, which fails again, and returns that error without skipping or
parsing. -/
theorem C10_counterexample :
    (AgentSource.OpenRange (targetWith (plainMeta 3)) 0 (-1)
          = Except.error Error.ErrRangeNotSupported
        ∧ (scanTarget exampleEnv ⟨fun _ _ => none⟩ "w" AgentSource
            (targetWith (plainMeta 3))).err = some Error.ErrRangeNotSupported
        ∧ (scanTarget exampleEnv ⟨fun _ _ => none⟩ "w" AgentSource
            (targetWith (plainMeta 3))).trace = [Event.OpenRange 0 (-1)])
      ∧ (AgentSource.OpenRange (targetWith (plainMeta 3)) 2 (-1)
          = Except.error Error.ErrRangeNotSupported
        ∧ (scanTarget exampleEnv (storeWith { staleState with LastOffset := 2, LastSize := 2 })
            "w" AgentSource (targetWith (plainMeta 3))).err = some Error.ErrRangeNotSupported
        ∧ (scanTarget exampleEnv (storeWith { staleState with LastOffset := 2, LastSize := 2 })
            "w" AgentSource (targetWith (plainMeta 3))).trace
          = [Event.OpenRange 2 (-1), Event.OpenRange 0 (-1)]) := by
  refine ⟨⟨rfl, by decide, by decide⟩, ⟨rfl, by decide, by decide⟩⟩

/-- C10 (amended): whenever the first `OpenRange` of a pass, at start offset
`s0`, fails with `ErrRangeNotSupported`: if `s0 > 0` the pass reopens the
target from offset 0; when that reopen succeeds with a stream of at least `s0`
bytes it discards exactly `s0` bytes from the front, hands the remainder to
the parser with no minimum-timestamp filter, stores a state and returns no
error; when the reopen fails, its error is returned and nothing else happens.
If `s0` is 0 there is no fallback and `ErrRangeNotSupported` is returned to
the caller. -/
theorem C10_range_fallback (env : Env) (p : LogParser) (websiteID : String)
    (src : LogSource) (target : TargetRef) (s0 : Int) (rest : List Event)
    (htrace : (scanTarget env p websiteID src target).trace
      = statTrace target ++ Event.OpenRange s0 (-1) :: rest)
    (hfail : src.OpenRange target s0 (-1) = Except.error Error.ErrRangeNotSupported) :
    (0 < s0 →
        (∀ content, src.OpenRange target 0 (-1) = Except.ok (some content) →
          s0 ≤ (content.length : Int) →
          (scanTarget env p websiteID src target).err = none
            ∧ ∃ written, rest = [Event.OpenRange 0 (-1), Event.skipReaderBytes s0,
                Event.parseLogLines (content.drop s0.toNat) ⟨0⟩,
                Event.setTargetState websiteID
                  (buildTargetStateKey target.SourceID target.Key) written])
        ∧ (∀ err2, src.OpenRange target 0 (-1) = Except.error err2 →
          (scanTarget env p websiteID src target).err = some err2
            ∧ rest = [Event.OpenRange 0 (-1)]))
      ∧ (s0 ≤ 0 →
        (scanTarget env p websiteID src target).err = some Error.ErrRangeNotSupported
          ∧ rest = []) := by
  cases hm : observeMeta src target with
  | error err =>
    have htr : (scanTarget env p websiteID src target).trace = statTrace target := by
      unfold scanTarget
      simp only [hm]
    rw [htr] at htrace
    have := List.append_cancel_left (htrace.symm.trans (List.append_nil _).symm)
    simp at this
  | ok m =>
    rw [scanTarget_observed env p websiteID src target m hm] at htrace ⊢
    simp only [ScanResult.after] at htrace ⊢
    have hinner := List.append_cancel_left htrace
    unfold scanObserved at hinner ⊢
    simp only at hinner ⊢
    split
    · rename_i hr
      rw [if_pos hr] at hinner
      exact scanFrom_fallback _ _ _ _ _ _ _ _ _ s0 rest hinner hfail
    · rename_i hr
      rw [if_neg hr] at hinner
      exact scanFrom_fallback _ _ _ _ _ _ _ _ _ s0 rest hinner hfail

/-- Witness of C10 (amended): a backend that serves only whole streams, a
stored offset 2 on a 3-byte target: the pass reopens from 0, skips 2 bytes and
parses the last byte. -/
theorem C10_range_fallback_witness :
    (scanTarget exampleEnv (storeWith { staleState with LastOffset := 2, LastSize := 2 }) "w"
        (streamOnlySource [1, 2, 3]) (targetWith (plainMeta 3))).trace
        = statTrace (targetWith (plainMeta 3)) ++ Event.OpenRange 2 (-1) ::
            [Event.OpenRange 0 (-1), Event.skipReaderBytes 2, Event.parseLogLines [3] ⟨0⟩,
              Event.setTargetState "w" "s:k"
                { TargetState.zero with
                  LastOffset := 3, LastSize := 3, LastModTime := 1700000000,
                  LastTimestamp := 1700000000, RecentCutoffTs := 5, BackfillDone := true }]
      ∧ (streamOnlySource [1, 2, 3]).OpenRange (targetWith (plainMeta 3)) 2 (-1)
          = Except.error Error.ErrRangeNotSupported
      ∧ (scanTarget exampleEnv (storeWith { staleState with LastOffset := 2, LastSize := 2 }) "w"
          (streamOnlySource [1, 2, 3]) (targetWith (plainMeta 3))).err = none :=
  ⟨by decide, rfl,
    (((C10_range_fallback exampleEnv
      (storeWith { staleState with LastOffset := 2, LastSize := 2 }) "w"
      (streamOnlySource [1, 2, 3]) (targetWith (plainMeta 3)) 2
      [Event.OpenRange 0 (-1), Event.skipReaderBytes 2, Event.parseLogLines [3] ⟨0⟩,
        Event.setTargetState "w" "s:k"
          { TargetState.zero with
            LastOffset := 3, LastSize := 3, LastModTime := 1700000000,
            LastTimestamp := 1700000000, RecentCutoffTs := 5, BackfillDone := true }]
      (by decide) rfl).1 (by decide)).1 [1, 2, 3] rfl (by decide)).1⟩

/-! ## Timestamp bounds -/

theorem updateTargetParsedRange_fields (state : TargetState) (minTs maxTs : Int) :
    (updateTargetParsedRange state minTs maxTs).ParsedMinTs
        = (if 0 < minTs ∧ (state.ParsedMinTs = 0 ∨ minTs < state.ParsedMinTs)
            then minTs else state.ParsedMinTs)
      ∧ (updateTargetParsedRange state minTs maxTs).ParsedMaxTs
        = (if 0 < maxTs ∧ state.ParsedMaxTs < maxTs then maxTs else state.ParsedMaxTs)
      ∧ (updateTargetParsedRange state minTs maxTs).FirstTimestamp
        = (if state.FirstTimestamp = 0 ∨ (0 < minTs ∧ minTs < state.FirstTimestamp)
            then minTs else state.FirstTimestamp)
      ∧ (updateTargetParsedRange state minTs maxTs).LastTimestamp
        = (if 0 < maxTs ∧ state.LastTimestamp < maxTs then maxTs else state.LastTimestamp) := by
  unfold updateTargetParsedRange
  refine ⟨?_, ?_, ?_, ?_⟩ <;> simp only [] <;> split_ifs <;> rfl

/-- The parsed minimum is never negative and, once set, is at most the
parsed maximum: preserved by `updateTargetParsedRange` on ordered bounds. -/
theorem updateTargetParsedRange_ordered (state : TargetState) (minTs maxTs : Int)
    (hb : minTs ≤ maxTs)
    (h : 0 ≤ state.ParsedMinTs ∧ (0 < state.ParsedMinTs → state.ParsedMinTs ≤ state.ParsedMaxTs)) :
    0 ≤ (updateTargetParsedRange state minTs maxTs).ParsedMinTs
      ∧ (0 < (updateTargetParsedRange state minTs maxTs).ParsedMinTs →
          (updateTargetParsedRange state minTs maxTs).ParsedMinTs
            ≤ (updateTargetParsedRange state minTs maxTs).ParsedMaxTs) := by
  obtain ⟨h0, h1⟩ := h
  obtain ⟨hmin, hmax, _, _⟩ := updateTargetParsedRange_fields state minTs maxTs
  rw [hmin, hmax]
  constructor
  · split_ifs <;> omega
  · intro hpos
    split_ifs at hpos ⊢ <;> omega

theorem applyRanges_append (state : TargetState) (bounds : List (Int × Int)) (b : Int × Int) :
    applyRanges state (bounds ++ [b])
      = updateTargetParsedRange (applyRanges state bounds) b.1 b.2 := by
  simp [applyRanges, List.foldl_append]

theorem applyRanges_ordered (cutoff : Int) (bounds : List (Int × Int))
    (hb : ∀ b, b ∈ bounds → b.1 ≤ b.2) :
    0 ≤ (applyRanges (freshState cutoff) bounds).ParsedMinTs
      ∧ (0 < (applyRanges (freshState cutoff) bounds).ParsedMinTs →
          (applyRanges (freshState cutoff) bounds).ParsedMinTs
            ≤ (applyRanges (freshState cutoff) bounds).ParsedMaxTs) := by
  induction bounds using List.reverseRecOn with
  | nil => simp [applyRanges, freshState, TargetState.zero]
  | append_singleton bounds b ih =>
    rw [applyRanges_append]
    apply updateTargetParsedRange_ordered
    · exact hb b (by simp)
    · exact ih (fun b2 hb2 => hb b2 (List.mem_append_left _ hb2))

/-- C11: for every state reached from a freshly created `TargetState` by any
sequence of `updateTargetParsedRange` calls whose bounds satisfy
`minTs ≤ maxTs`, the stored `parsedMinTs` and `parsedMaxTs` are either not
both non-zero or satisfy `parsedMinTs ≤ parsedMaxTs`. -/
theorem C11_parsed_bounds_ordered (cutoff : Int) (bounds : List (Int × Int))
    (hb : ∀ b, b ∈ bounds → b.1 ≤ b.2) :
    ¬ ((applyRanges (freshState cutoff) bounds).ParsedMinTs ≠ 0
        ∧ (applyRanges (freshState cutoff) bounds).ParsedMaxTs ≠ 0)
      ∨ (applyRanges (freshState cutoff) bounds).ParsedMinTs
          ≤ (applyRanges (freshState cutoff) bounds).ParsedMaxTs := by
  obtain ⟨h0, h1⟩ := applyRanges_ordered cutoff bounds hb
  by_cases hz : (applyRanges (freshState cutoff) bounds).ParsedMinTs = 0
  · exact Or.inl (fun h => h.1 hz)
  · exact Or.inr (h1 (by omega))

/-- Witness of C11: four passes; one parsed nothing, one reported an earlier
range, one a later range. The stored bounds end at 3 and 30. -/
theorem C11_parsed_bounds_ordered_witness :
    (∀ b, b ∈ [((5 : Int), (10 : Int)), (0, 0), (3, 4), (20, 30)] → b.1 ≤ b.2)
      ∧ (applyRanges (freshState 1000) [(5, 10), (0, 0), (3, 4), (20, 30)]).ParsedMinTs = 3
      ∧ (applyRanges (freshState 1000) [(5, 10), (0, 0), (3, 4), (20, 30)]).ParsedMaxTs = 30
      ∧ (¬ ((applyRanges (freshState 1000) [(5, 10), (0, 0), (3, 4), (20, 30)]).ParsedMinTs ≠ 0
          ∧ (applyRanges (freshState 1000) [(5, 10), (0, 0), (3, 4), (20, 30)]).ParsedMaxTs ≠ 0)
        ∨ (applyRanges (freshState 1000) [(5, 10), (0, 0), (3, 4), (20, 30)]).ParsedMinTs
            ≤ (applyRanges (freshState 1000) [(5, 10), (0, 0), (3, 4), (20, 30)]).ParsedMaxTs) :=
  ⟨by decide, by decide, by decide,
    C11_parsed_bounds_ordered 1000 [(5, 10), (0, 0), (3, 4), (20, 30)] (by decide)⟩

end ingest

namespace dedup

/-! ## Expired entries and capacity eviction -/

theorem Seen_entries {c : Cache} (h : Inv c) (key : String) (now : Int) :
    ∃ rest, orderEntries (Seen c key now).2 = ⟨key, now + c.ttl⟩ :: rest
      ∧ rest.Sublist (orderEntries c) := by
  have hcons := h.consistent
  cases hg : mapGet c.items key with
  | none =>
    have hres : (Seen c key now).2 = insertFresh c key now := by
      simp [Seen, hg]
    rw [hres]
    exact insertFresh_entries hcons now hg
  | some element =>
    obtain ⟨hmem, hkey⟩ := hcons.index_sound key element hg
    by_cases hlt : now < (c.heap element).expiresAt
    · have hres : (Seen c key now).2 = refresh c element now := by
        simp [Seen, hg, hlt]
      rw [hres]
      have horder : (refresh c element now).order = element :: c.order.erase element := by
        simp [refresh, listMoveToFront, hmem]
      have hheap : (refresh c element now).heap element = ⟨key, now + c.ttl⟩ := by
        simp [refresh, hkey]
      have hrest : (c.order.erase element).map (refresh c element now).heap
          = (c.order.erase element).map c.heap := by
        apply List.map_congr_left
        intro p hp
        have hne : p ≠ element := by
          rintro rfl
          exact (List.Nodup.not_mem_erase hcons.order_nodup) hp
        simp [refresh, Function.update_noteq hne]
      refine ⟨(c.order.erase element).map c.heap, ?_, ?_⟩
      · unfold orderEntries
        rw [horder, List.map_cons, hheap, hrest]
      · exact List.Sublist.map _ (List.erase_sublist _ _)
    · have hres : (Seen c key now).2 = insertFresh (removeElement c element) key now := by
        simp [Seen, hg, hlt]
      rw [hres]
      have hc2 := consistent_removeElement hcons hmem
      have hk2 : mapGet (removeElement c element).items key = none := by
        simp [removeElement, mapGet_mapDelete, hkey]
      obtain ⟨rest, hrest, hsub⟩ := insertFresh_entries hc2 now hk2
      refine ⟨rest, hrest, hsub.trans ?_⟩
      exact List.Sublist.map _ (List.erase_sublist _ _)

theorem NewCache_ttl_pos (maxEntries ttl : Int) : 0 < (NewCache maxEntries ttl).ttl := by
  simp only [NewCache, tenMinutes]
  split <;> omega

/-- Under non-decreasing clock readings the expiry times along the recency
list never increase from front to back, and every stored expiry is the clock
reading of some call plus the TTL. -/
theorem orderEntries_sorted (maxEntries ttl : Int) (calls : List (String × Int))
    (hclock : (calls.map Prod.snd).Pairwise (fun a b => a ≤ b)) :
    (orderEntries (run (NewCache maxEntries ttl) calls)).Pairwise
        (fun a b => b.expiresAt ≤ a.expiresAt)
      ∧ ∀ e, e ∈ orderEntries (run (NewCache maxEntries ttl) calls) →
          ∃ t, t ∈ calls.map Prod.snd ∧ e.expiresAt = t + (NewCache maxEntries ttl).ttl := by
  induction calls using List.reverseRecOn with
  | nil => simp [run, NewCache, orderEntries]
  | append_singleton calls call ih =>
    obtain ⟨k, now⟩ := call
    rw [List.map_append, List.pairwise_append] at hclock
    obtain ⟨hc1, _, hle⟩ := hclock
    obtain ⟨ihs, ihb⟩ := ih hc1
    have hr := run_spec (inv_NewCache maxEntries ttl) calls
    obtain ⟨rest, hrest, hsub⟩ := Seen_entries hr.1 k now
    rw [run_append, hrest, hr.2.1]
    constructor
    · rw [List.pairwise_cons]
      refine ⟨?_, List.Pairwise.sublist hsub ihs⟩
      intro b hb
      obtain ⟨t, ht, hbt⟩ := ihb b (hsub.subset hb)
      have := hle t ht now (by simp)
      show b.expiresAt ≤ now + (NewCache maxEntries ttl).ttl
      omega
    · intro e he
      rcases List.mem_cons.mp he with h | h
      · exact ⟨now, by simp, by rw [h]⟩
      · obtain ⟨t, ht, hbt⟩ := ihb e (hsub.subset h)
        exact ⟨t, by simp [List.mem_map] at ht ⊢; exact Or.inl ht, hbt⟩

theorem back_has_earliest_expiry {c : Cache}
    (hs : (orderEntries c).Pairwise (fun a b => b.expiresAt ≤ a.expiresAt))
    {b : Nat} (hb : listBack c.order = some b) :
    ∀ e, e ∈ orderEntries c → (c.heap b).expiresAt ≤ e.expiresAt := by
  unfold listBack at hb
  have hsplit : c.order.dropLast ++ [b] = c.order := List.dropLast_append_getLast? b hb
  intro e he
  unfold orderEntries at hs he
  rw [← hsplit, List.map_append] at hs he
  rcases List.mem_append.mp he with h | h
  · exact (List.pairwise_append.mp hs).2.2 e h (c.heap b) (by simp)
  · simp at h
    rw [h]

theorem evicted_is_back {c : Cache} (h : Inv c) {key : String} {now : Int} {v : Nat}
    (hev : evicted c key now = some v) :
    mapGet c.items key = none ∧ listBack c.order = some v := by
  have hb := h.bounded
  have hcap := h.cap_pos
  unfold evicted at hev
  cases hg : mapGet c.items key with
  | some element =>
    rw [hg] at hev
    simp only at hev
    obtain ⟨hmem, _⟩ := h.consistent.index_sound key element hg
    split at hev
    · exact Option.noConfusion hev
    · exfalso
      unfold evictedAfterPush at hev
      have hlen : (pushFresh (removeElement c element) key now).order.length
          = c.order.length := by
        show ((removeElement c element).nextPtr :: c.order.erase element).length = _
        rw [List.length_cons, List.length_erase_of_mem hmem]
        have : 0 < c.order.length := List.length_pos_of_mem hmem
        omega
      have hmax : (pushFresh (removeElement c element) key now).maxEntries = c.maxEntries := rfl
      simp only [hlen, hmax] at hev
      split at hev
      · rename_i hguard
        omega
      · exact Option.noConfusion hev
  | none =>
    rw [hg] at hev
    simp only at hev
    refine ⟨rfl, ?_⟩
    unfold evictedAfterPush at hev
    have hlen : (pushFresh c key now).order.length = c.order.length + 1 := rfl
    have hmax : (pushFresh c key now).maxEntries = c.maxEntries := rfl
    have hord : (pushFresh c key now).order = c.nextPtr :: c.order := rfl
    simp only [hlen, hmax, hord] at hev
    split at hev
    · rename_i hguard
      unfold listBack at hev ⊢
      cases hco : c.order with
      | nil =>
        rw [hco] at hguard
        simp at hguard
        omega
      | cons a t =>
        rw [hco, List.getLast?_cons_cons] at hev
        exact hev
    · exact Option.noConfusion hev

/-- C14: for every sequence of `Seen` calls made with non-decreasing clock
readings, followed by a call on `k` at a reading `now` not before them:
the entry at the back of the recency list has the earliest expiry of all
stored entries; and whenever the call removes an entry by capacity eviction,
`k` was not stored, the entry removed is that back entry (the call leaves the
cache with the fresh entry pushed and that element removed), and if it has not
yet expired at `now` then no entry the cache holds at that moment (the entries
stored before the call and the fresh entry for `k`) has expired. -/
theorem C14_eviction_prefers_expired (maxEntries ttl : Int) (calls : List (String × Int))
    (k : String) (now : Int)
    (hclock : (calls.map Prod.snd ++ [now]).Pairwise (fun a b => a ≤ b)) :
    (∀ b, listBack (run (NewCache maxEntries ttl) calls).order = some b →
        ∀ e, e ∈ orderEntries (run (NewCache maxEntries ttl) calls) →
          ((run (NewCache maxEntries ttl) calls).heap b).expiresAt ≤ e.expiresAt)
      ∧ (∀ v, evicted (run (NewCache maxEntries ttl) calls) k now = some v →
          mapGet (run (NewCache maxEntries ttl) calls).items k = none
            ∧ listBack (run (NewCache maxEntries ttl) calls).order = some v
            ∧ (Seen (run (NewCache maxEntries ttl) calls) k now).2
                = removeElement (pushFresh (run (NewCache maxEntries ttl) calls) k now) v
            ∧ (now < ((run (NewCache maxEntries ttl) calls).heap v).expiresAt →
                ∀ e, e ∈ orderEntries (pushFresh (run (NewCache maxEntries ttl) calls) k now) →
                  now < e.expiresAt)) := by
  have hc1 : (calls.map Prod.snd).Pairwise (fun a b => a ≤ b) :=
    (List.pairwise_append.mp hclock).1
  obtain ⟨hsorted, _⟩ := orderEntries_sorted maxEntries ttl calls hc1
  have hr := run_spec (inv_NewCache maxEntries ttl) calls
  have httl : 0 < (run (NewCache maxEntries ttl) calls).ttl := by
    rw [hr.2.1]
    exact NewCache_ttl_pos maxEntries ttl
  constructor
  · intro b hb
    exact back_has_earliest_expiry hsorted hb
  · intro v hev
    obtain ⟨hnone, hback⟩ := evicted_is_back hr.1 hev
    refine ⟨hnone, hback, ?_, ?_⟩
    · have hres : (Seen (run (NewCache maxEntries ttl) calls) k now).2
          = insertFresh (run (NewCache maxEntries ttl) calls) k now := by
        simp [Seen, hnone]
      have hev2 : evictedAfterPush (run (NewCache maxEntries ttl) calls) k now = some v := by
        unfold evicted at hev
        rw [hnone] at hev
        exact hev
      rw [hres, insertFresh_eq_evicted, hev2]
    intro hlive e he
    rw [orderEntries_pushFresh hr.1.consistent] at he
    rcases List.mem_cons.mp he with h | h
    · rw [h]
      show now < now + (run (NewCache maxEntries ttl) calls).ttl
      omega
    · have := back_has_earliest_expiry hsorted hback e h
      omega

/-- Witness of C14: capacity 2, TTL 10. Keys "a" and "b" are seen at times 0
and 1, "a" again at 2; the call on "c" at 3 evicts "b", which expires at 11,
and no stored entry has expired. -/
theorem C14_eviction_prefers_expired_witness :
    (([("a", 0), ("b", 1), ("a", 2)] : List (String × Int)).map Prod.snd ++ [3]).Pairwise
        (fun a b => a ≤ b)
      ∧ evicted (run (NewCache 2 10) [("a", 0), ("b", 1), ("a", 2)]) "c" 3 = some 1
      ∧ ((run (NewCache 2 10) [("a", 0), ("b", 1), ("a", 2)]).heap 1) = ⟨"b", 11⟩
      ∧ ∀ e, e ∈ orderEntries (pushFresh (run (NewCache 2 10) [("a", 0), ("b", 1), ("a", 2)])
          "c" 3) → (3 : Int) < e.expiresAt :=
  ⟨by decide, by decide, by decide,
    ((C14_eviction_prefers_expired 2 10 [("a", 0), ("b", 1), ("a", 2)] "c" 3 (by decide)).2 1
      (by decide)).2.2.2 (by decide)⟩

end dedup

namespace source

open strings

/-! ## Compression detection -/

theorem isSpace_iff (c : Char) : isSpace c = true ↔ c.toNat ∈ whiteSpaceCodes := by
  unfold isSpace whiteSpaceCodes
  generalize c.toNat = n
  simp only [Bool.or_eq_true, Bool.and_eq_true, decide_eq_true_eq, beq_iff_eq,
    List.mem_cons, List.mem_singleton, List.not_mem_nil, or_false]
  omega

theorem asciiToLower_g (a : Char) : asciiToLower a = 'g' ↔ (a == 'g' || a == 'G') = true := by
  unfold asciiToLower
  split <;> first | decide | simp_all

theorem toNat_lt_of_beq (a b1 b2 : Char) (h1 : b1.toNat < 128) (h2 : b2.toNat < 128)
    (h : (a == b1 || a == b2) = true) : a.toNat < 128 := by
  simp only [Bool.or_eq_true, beq_iff_eq] at h
  rcases h with h | h <;> subst h <;> assumption

theorem asciiToLower_z (a : Char) : asciiToLower a = 'z' ↔ (a == 'z' || a == 'Z') = true := by
  unfold asciiToLower
  split <;> first | decide | simp_all

theorem asciiToLower_n (a : Char) : asciiToLower a = 'n' ↔ (a == 'n' || a == 'N') = true := by
  unfold asciiToLower
  split <;> first | decide | simp_all

theorem asciiToLower_o (a : Char) : asciiToLower a = 'o' ↔ (a == 'o' || a == 'O') = true := by
  unfold asciiToLower
  split <;> first | decide | simp_all

theorem asciiToLower_e (a : Char) : asciiToLower a = 'e' ↔ (a == 'e' || a == 'E') = true := by
  unfold asciiToLower
  split <;> first | decide | simp_all

theorem asciiToLower_dot (a : Char) : asciiToLower a = '.' ↔ (a == '.' || a == '.') = true := by
  unfold asciiToLower
  split <;> first | decide | simp_all

/-- Outside ASCII no rune has one of the ASCII characters `b` (other than i
and k) as lower case, and no such rune is `b` or its capital. -/
theorem table_ne_ascii (table : Char → Char)
    (htable : ∀ c : Char, 128 ≤ c.toNat → 128 ≤ (table c).toNat ∨ table c = 'i' ∨ table c = 'k')
    (b : Char) (hb : b.toNat < 128) (hi : b ≠ 'i') (hk : b ≠ 'k') (hu : b.toUpper.toNat < 128)
    (a : Char) (ha : ¬ a.toNat < 128) :
    table a = b ↔ (a == b || a == b.toUpper) = true := by
  constructor
  · intro h
    exfalso
    rcases htable a (by omega) with h1 | h1 | h1
    · rw [h] at h1
      omega
    · exact hi (h.symm.trans h1)
    · exact hk (h.symm.trans h1)
  · intro h
    exact absurd (toNat_lt_of_beq a b b.toUpper hb hu h) ha

/-- For each character of the literals "gz", "none" and ".gz": a rune has it
as lower case exactly when the rune is that character or its capital. -/
theorem toLowerRune_literal (table : Char → Char)
    (htable : ∀ c : Char, 128 ≤ c.toNat → 128 ≤ (table c).toNat ∨ table c = 'i' ∨ table c = 'k')
    (b : Char) (hb : b ∈ ['g', 'z', 'n', 'o', 'e', '.']) (a : Char) :
    toLowerRune table a = b ↔ (a == b || a == b.toUpper) = true := by
  unfold toLowerRune
  by_cases hlt : a.toNat < 128
  · rw [if_pos hlt]
    simp only [List.mem_cons, List.mem_singleton, List.not_mem_nil, or_false] at hb
    rcases hb with h | h | h | h | h | h <;> subst h
    · exact asciiToLower_g a
    · exact asciiToLower_z a
    · exact asciiToLower_n a
    · exact asciiToLower_o a
    · exact asciiToLower_e a
    · exact asciiToLower_dot a
  · rw [if_neg hlt]
    simp only [List.mem_cons, List.mem_singleton, List.not_mem_nil, or_false] at hb
    rcases hb with h | h | h | h | h | h <;> subst h <;>
      exact table_ne_ascii table htable _ (by decide) (by decide) (by decide) (by decide) a hlt

theorem map_toLowerRune_eq_iff (table : Char → Char)
    (htable : ∀ c : Char, 128 ≤ c.toNat → 128 ≤ (table c).toNat ∨ table c = 'i' ∨ table c = 'k') :
    ∀ (s lit : List Char), (∀ b, b ∈ lit → b ∈ ['g', 'z', 'n', 'o', 'e', '.']) →
      (s.map (toLowerRune table) = lit ↔ matchesFold s lit = true)
  | [], [], _ => by simp [matchesFold]
  | [], b :: lit, _ => by simp [matchesFold]
  | a :: s, [], _ => by simp [matchesFold]
  | a :: s, b :: lit, h => by
    have hb := toLowerRune_literal table htable b (h b (List.mem_cons_self _ _)) a
    have ih := map_toLowerRune_eq_iff table htable s lit
      (fun c hc => h c (List.mem_cons_of_mem _ hc))
    simp only [List.map_cons, List.cons.injEq, matchesFold, Bool.and_eq_true]
    rw [hb, ih]

theorem matchesFold_length : ∀ (s lit : List Char), matchesFold s lit = true →
    s.length = lit.length
  | [], [], _ => rfl
  | [], b :: lit, h => by simp [matchesFold] at h
  | a :: s, [], h => by simp [matchesFold] at h
  | a :: s, b :: lit, h => by
    simp only [matchesFold, Bool.and_eq_true] at h
    simp [matchesFold_length s lit h.2]

/-- A case variant of a literal made of the characters of "gz", "none" and
".gz" holds no white space. -/
theorem matchesFold_noSpace : ∀ (s lit : List Char), matchesFold s lit = true →
    (∀ b, b ∈ lit → b ∈ ['g', 'z', 'n', 'o', 'e', '.']) → ∀ a, a ∈ s → isSpace a = false
  | [], [], _, _ => by simp
  | [], b :: lit, h, _ => by simp [matchesFold] at h
  | a :: s, [], h, _ => by simp [matchesFold] at h
  | a :: s, b :: lit, h, hlit => by
    simp only [matchesFold, Bool.and_eq_true] at h
    intro c hc
    rcases List.mem_cons.mp hc with hca | hcs
    · have hb := hlit b (List.mem_cons_self _ _)
      simp only [List.mem_cons, List.mem_singleton, List.not_mem_nil, or_false] at hb
      have h1 := h.1
      simp only [Bool.or_eq_true, beq_iff_eq] at h1
      rw [hca]
      rcases hb with hb | hb | hb | hb | hb | hb <;> subst hb <;>
        rcases h1 with h1 | h1 <;> subst h1 <;> decide
    · exact matchesFold_noSpace s lit h.2 (fun b hb => hlit b (List.mem_cons_of_mem _ hb)) c hcs

theorem dropWhile_append_of_all {p : Char → Bool} :
    ∀ (lead : List Char) (a : Char) (t : List Char), (∀ c, c ∈ lead → p c = true) →
      p a = false → (lead ++ a :: t).dropWhile p = a :: t
  | [], a, t, _, ha => by simp [List.dropWhile, ha]
  | b :: lead, a, t, hl, ha => by
    have hb : p b = true := hl b (List.mem_cons_self _ _)
    simp only [List.cons_append, List.dropWhile_cons, hb, if_true]
    exact dropWhile_append_of_all lead a t (fun c hc => hl c (List.mem_cons_of_mem _ hc)) ha

/-- Trimming removes exactly the white space around a core that holds none. -/
theorem trim_of_padded (lead core trail : List Char)
    (hl : ∀ c, c ∈ lead → isSpace c = true) (ht : ∀ c, c ∈ trail → isSpace c = true)
    (hne : core ≠ []) (hc : ∀ c, c ∈ core → isSpace c = false) :
    trimRight ((lead ++ core ++ trail).dropWhile isSpace) = core := by
  have hfront : (lead ++ core ++ trail).dropWhile isSpace = core ++ trail := by
    cases hcore : core with
    | nil => exact absurd hcore hne
    | cons a t =>
      rw [List.append_assoc, List.cons_append]
      exact dropWhile_append_of_all lead a (t ++ trail) hl
        (hc a (by rw [hcore]; exact List.mem_cons_self _ _))
  rw [hfront]
  unfold trimRight
  rw [List.reverse_append]
  have hrev : core.reverse ≠ [] := by simpa using hne
  cases hcr : core.reverse with
  | nil => exact absurd hcr hrev
  | cons a t =>
    have ha : isSpace a = false := by
      apply hc
      have : a ∈ core.reverse := by rw [hcr]; exact List.mem_cons_self _ _
      exact List.mem_reverse.mp this
    rw [dropWhile_append_of_all trail.reverse a t
      (fun c hcm => ht c (List.mem_reverse.mp hcm)) ha, ← hcr, List.reverse_reverse]

/-- Every string is white space, then its trimmed form, then white space. -/
theorem padded_of_trim (l : List Char) :
    ∃ lead trail, l = lead ++ trimRight (l.dropWhile isSpace) ++ trail
      ∧ (∀ c, c ∈ lead → isSpace c = true) ∧ (∀ c, c ∈ trail → isSpace c = true) := by
  refine ⟨l.takeWhile isSpace,
    (((l.dropWhile isSpace).reverse).takeWhile isSpace).reverse, ?_, ?_, ?_⟩
  · have h1 : l = l.takeWhile isSpace ++ l.dropWhile isSpace :=
      (List.takeWhile_append_dropWhile isSpace l).symm
    have h2 : l.dropWhile isSpace
        = trimRight (l.dropWhile isSpace)
          ++ (((l.dropWhile isSpace).reverse).takeWhile isSpace).reverse := by
      unfold trimRight
      rw [← List.reverse_append, List.takeWhile_append_dropWhile, List.reverse_reverse]
    rw [List.append_assoc, ← h2]
    exact h1
  · intro c hc
    exact List.mem_takeWhile_imp hc
  · intro c hc
    exact List.mem_takeWhile_imp (List.mem_reverse.mp hc)

theorem normalizeCompression_eq_iff (table : Char → Char)
    (htable : ∀ c : Char, 128 ≤ c.toNat → 128 ≤ (table c).toNat ∨ table c = 'i' ∨ table c = 'k')
    (compression lit : String)
    (hlit : ∀ b, b ∈ lit.data → b ∈ ['g', 'z', 'n', 'o', 'e', '.'])
    (hne : lit.data ≠ []) :
    normalizeCompression table compression = lit ↔ paddedFold compression lit := by
  have hnorm : normalizeCompression table compression = lit
      ↔ matchesFold (TrimSpace compression).data lit.data = true := by
    rw [← map_toLowerRune_eq_iff table htable _ _ hlit]
    unfold normalizeCompression ToLower
    rw [String.ext_iff]
  rw [hnorm]
  unfold paddedFold
  constructor
  · intro h
    obtain ⟨lead, trail, hsplit, hl, ht⟩ := padded_of_trim compression.data
    exact ⟨lead, (TrimSpace compression).data, trail, hsplit,
      fun c hc => (isSpace_iff c).mp (hl c hc), fun c hc => (isSpace_iff c).mp (ht c hc), h⟩
  · rintro ⟨lead, core, trail, hsplit, hl, ht, hmatch⟩
    have hcne : core ≠ [] := by
      intro hc
      have := matchesFold_length core lit.data hmatch
      rw [hc] at this
      exact hne (List.length_eq_zero.mp this.symm)
    have htrim : (TrimSpace compression).data = core := by
      unfold TrimSpace
      rw [hsplit]
      exact trim_of_padded lead core trail (fun c hc => (isSpace_iff c).mpr (hl c hc))
        (fun c hc => (isSpace_iff c).mpr (ht c hc)) hcne
        (matchesFold_noSpace core lit.data hmatch hlit)
    rw [htrim]
    exact hmatch

theorem HasSuffix_ToLower_iff (table : Char → Char)
    (htable : ∀ c : Char, 128 ≤ c.toNat → 128 ≤ (table c).toNat ∨ table c = 'i' ∨ table c = 'k')
    (name lit : String)
    (hlit : ∀ b, b ∈ lit.data → b ∈ ['g', 'z', 'n', 'o', 'e', '.']) :
    HasSuffix (ToLower table name) lit = true
      ↔ ∃ front back, name.data = front ++ back ∧ matchesFold back lit.data = true := by
  unfold HasSuffix ToLower
  simp only [decide_eq_true_eq, List.length_map]
  constructor
  · rintro ⟨hlen, hdrop⟩
    refine ⟨name.data.take (name.data.length - lit.data.length),
      name.data.drop (name.data.length - lit.data.length),
      (List.take_append_drop _ _).symm, ?_⟩
    rw [← map_toLowerRune_eq_iff table htable _ _ hlit, List.map_drop]
    exact hdrop
  · rintro ⟨front, back, hname, hmatch⟩
    have hlen := matchesFold_length back lit.data hmatch
    have hmap := (map_toLowerRune_eq_iff table htable back lit.data hlit).mpr hmatch
    rw [hname]
    refine ⟨by simp [hlen], ?_⟩
    rw [List.map_append, hmap, List.length_append, hlen]
    apply List.drop_left'
    simp

/-- C13: for every key name and compression policy, `isCompressedByName`
returns true when the policy, with the white space around it removed, is "gz"
up to the case of its letters, false when it is "none" in the same sense, both
whatever the name; for every other policy it returns true exactly when the
name ends with ".gz" up to the case of its letters. The Unicode case tables
of the Go runtime enter as `table`; what is used of them is that outside
ASCII only two runes have an ASCII lower case, the letters i and k. -/
theorem C13_isCompressedByName (table : Char → Char)
    (htable : ∀ c : Char, 128 ≤ c.toNat → 128 ≤ (table c).toNat ∨ table c = 'i' ∨ table c = 'k')
    (name compression : String) :
    (paddedFold compression "gz" → isCompressedByName table name compression = true)
      ∧ (paddedFold compression "none" → isCompressedByName table name compression = false)
      ∧ (¬ paddedFold compression "gz" → ¬ paddedFold compression "none" →
        (isCompressedByName table name compression = true
          ↔ ∃ front back, name.data = front ++ back
              ∧ matchesFold back ".gz".data = true)) := by
  have hgz := normalizeCompression_eq_iff table htable compression "gz" (by decide) (by decide)
  have hnone := normalizeCompression_eq_iff table htable compression "none" (by decide)
    (by decide)
  have hsuf := HasSuffix_ToLower_iff table htable name ".gz" (by decide)
  refine ⟨?_, ?_, ?_⟩
  · intro h
    unfold isCompressedByName
    rw [if_pos (hgz.mpr h)]
  · intro h
    have hn : normalizeCompression table compression = "none" := hnone.mpr h
    have hne : ¬ normalizeCompression table compression = "gz" := by
      rw [hn]
      decide
    unfold isCompressedByName
    rw [if_neg hne, if_pos hn]
  · intro h1 h2
    have n1 : ¬ normalizeCompression table compression = "gz" := fun h => h1 (hgz.mp h)
    have n2 : ¬ normalizeCompression table compression = "none" := fun h => h2 (hnone.mp h)
    unfold isCompressedByName
    rw [if_neg n1, if_neg n2]
    exact hsuf

theorem sampleTable_ascii (c : Char) (hc : 128 ≤ c.toNat) :
    128 ≤ (sampleTable c).toNat ∨ sampleTable c = 'i' ∨ sampleTable c = 'k' := by
  unfold sampleTable
  split
  · decide
  · decide
  · decide
  · decide
  · exact Or.inl hc

/-- Witness of C13: on a case table that lowers e-acute, the policy "gz"
written with a capital and with tabs, blanks and a line end around it makes
every name compressed; the name is lowered rune by rune. -/
theorem C13_isCompressedByName_witness :
    (∀ c : Char, 128 ≤ c.toNat →
        128 ≤ (sampleTable c).toNat ∨ sampleTable c = 'i' ∨ sampleTable c = 'k')
      ∧ paddedFold "\t Gz \n" "gz"
      ∧ isCompressedByName sampleTable "a.log" "\t Gz \n" = true
      ∧ normalizeCompression sampleTable " \t NONE\r\n" = "none"
      ∧ isCompressedByName sampleTable "a.log.gz" " \t NONE\r\n" = false
      ∧ ToLower sampleTable "É.LOG.GZ" = "é.log.gz"
      ∧ isCompressedByName sampleTable "É.LOG.GZ" "auto" = true
      ∧ isCompressedByName sampleTable "a.log" " gz x" = false :=
  ⟨sampleTable_ascii,
    ⟨['\t', ' '], ['G', 'z'], [' ', '\n'], rfl, by decide, by decide, by decide⟩,
    (C13_isCompressedByName sampleTable sampleTable_ascii "a.log" "\t Gz \n").1
      ⟨['\t', ' '], ['G', 'z'], [' ', '\n'], rfl, by decide, by decide, by decide⟩,
    by decide, by decide, by decide, by decide, by decide⟩

end source
